import Mathlib

/-!
Shallow embedding of the block state-transition and storage-consistency
engine of golint-fixer/go-earthdollar, together with theorems checking the
natural-language specification against it.

Sources embedded:
* `core/state_processor.go` — `Process`, `ApplyTransaction`,
  `AccumulateRewards`, `PayRewards`;
* the startup storage-maintenance file — `upgradeChainDatabase`,
  `addMipmapBloomBins`.

Conventions: `math/big` integers become `Int` (`big.Int.Div` is Euclidean
division, i.e. `Int.ediv`); addresses, hashes and opaque byte strings
become `Nat`; fallible operations return `Except`/`Option`; Go `nil`
pointer dereference (a runtime panic) is modelled as an explicit error
value.  External capabilities (the message executor, the state database's
internals) are parameters.
-/

namespace Earthdollar

/-- The fields of `types.Header` read by the state processor:
`Number`, `Coinbase`, and `GasLimit` (read through `block.GasLimit()`). -/
structure Header where
  number : Int
  coinbase : Nat
  gasLimit : Int
deriving DecidableEq, Repr

/-- The `rewards` slice built by `AccumulateRewards` holds `*big.Int`
pointers: every uncle iteration appends the one shared cell `r`, and the
final entry is the separate cell `miner_reward`.  This type names the two
cells so the aliasing of the source can be modelled exactly. -/
inductive RCell where
  | r
  | miner
deriving DecidableEq, Repr

/-- The uncle loop of `AccumulateRewards` (state_processor.go lines
99–109).  State: the current value of the cell `r`, the current value of
`miner_reward`, and the pointers appended to `rewards` so far.  Each
iteration recomputes `r` as `(uncle.Number + 8 - header.Number) *
BlockReward / 8`, appends the pointer `r`, then overwrites `r` with
`BlockReward / 32` and adds it to `miner_reward`. -/
def accRewardsLoop (blockReward : Int) (headerNumber : Int) :
    List Header → Int → Int → List RCell → Int × Int × List RCell
  | [], rv, mv, cells => (rv, mv, cells)
  | u :: us, _rv, mv, cells =>
      let _rv1 : Int := ((u.number + 8 - headerNumber) * blockReward).ediv 8
      let cells1 := cells ++ [RCell.r]
      let rv2 : Int := blockReward.ediv 32
      accRewardsLoop blockReward headerNumber us rv2 (mv + rv2) (cells1)

/-- `AccumulateRewards` (state_processor.go lines 95–113).  The statedb
argument is threaded through unchanged: the two `statedb.AddBalance`
calls in the source body are commented out, so the function never touches
it.  The returned list holds the values of the appended pointers as
observed at return time (dereferencing each cell after the loop), which
is what every caller sees.  `BlockReward`, a package-level variable whose
definition lives outside the embedded files, is passed explicitly. -/
def AccumulateRewards {S : Type} (statedb : S) (blockReward : Int)
    (header : Header) (uncles : List Header) : List Int × S :=
  match accRewardsLoop blockReward header.number uncles 0 blockReward [] with
  | (rv, mv, cells) =>
      ((cells ++ [RCell.miner]).map (fun c => match c with
        | RCell.r => rv
        | RCell.miner => mv), statedb)

/-- The reward list as the specification's words describe it (spec §4.4 /
§8): per uncle `(u.number + 8 - header.number) * BlockReward / 8` with the
division truncating toward zero, in uncle order, followed by one miner
entry `BlockReward + k * (BlockReward / 32)`.  Used only to compare the
spec's claim against the embedded source. -/
def specRewardList (blockReward : Int) (header : Header)
    (uncles : List Header) : List Int :=
  uncles.map (fun u => ((u.number + 8 - header.number) * blockReward).tdiv 8)
    ++ [blockReward + uncles.length * (blockReward.tdiv 32)]

/-- The balance component of the world state: address to balance. -/
abbrev Balances := Nat → Int

/-- `StateDB.AddBalance` on the balance component: credit one address. -/
def addBalance (s : Balances) (addr : Nat) (amount : Int) : Balances :=
  fun a => if a = addr then s a + amount else s a

/-- The uncle loop of `PayRewards` (state_processor.go lines 117–121):
credit each uncle's coinbase with `rewards[i]`, advancing `i`.  Returns
the updated state together with the unconsumed tail of `rewards`;
`none` models the Go index-out-of-range panic when `rewards` is shorter
than the uncle list. -/
def payUncleLoop {S : Type} (addBal : S → Nat → Int → S) :
    S → List Header → List Int → Option (S × List Int)
  | s, [], rest => some (s, rest)
  | s, u :: us, rw :: rest => payUncleLoop addBal (addBal s u.coinbase rw) us rest
  | _, _ :: _, [] => none

/-- `PayRewards` (state_processor.go lines 116–123): credit every uncle
coinbase with `rewards[i]` in uncle order, then credit `header.Coinbase`
with `rewards[len uncles]`.  `none` models the Go index-out-of-range
panic.  The `AddBalance` operation is a parameter so the same definition
serves both the concrete balance map and the abstract statedb used by
`Process`. -/
def PayRewards {S : Type} (addBal : S → Nat → Int → S) (statedb : S)
    (header : Header) (uncles : List Header) (rewards : List Int) : Option S :=
  match payUncleLoop addBal statedb uncles rewards with
  | some (s1, rw :: _) => some (addBal s1 header.coinbase rw)
  | some (_, []) => none
  | none => none

/-- The fields of `types.Transaction` read by the processor: `Hash()`,
`From()`, `Nonce()`, and the recipient (`MessageCreatesContract` holds
exactly when the recipient is absent). -/
structure Tx where
  hash : Nat
  sender : Nat
  nonce : Nat
  recipient : Option Nat
deriving DecidableEq, Repr

/-- `MessageCreatesContract`: the transaction has no recipient. -/
def MessageCreatesContract (tx : Tx) : Bool :=
  tx.recipient.isNone

/-- `types.Receipt` as populated by `ApplyTransaction`. -/
structure Receipt where
  postState : Nat
  cumulativeGasUsed : Int
  txHash : Nat
  gasUsed : Int
  contractAddress : Option Nat
  logs : List Nat
  bloom : Nat
deriving DecidableEq, Repr

/-- The parts of `types.Block` read by `Process`: header, content hash,
transactions and uncle headers.  `block.GasLimit()` reads the header. -/
structure Block where
  header : Header
  hash : Nat
  txs : List Tx
  uncles : List Header
deriving DecidableEq, Repr

/-- `block.GasLimit()`. -/
def Block.gasLimit (b : Block) : Int := b.header.gasLimit

/-- External capabilities consumed by `Process`/`ApplyTransaction`,
over an abstract statedb type `S` and executor error type `E`:
`ApplyMessage` through `NewEnv` (returns gas used, the mutated statedb
and gas pool; deterministic), `StartRecord`, `IntermediateRoot`,
`GetLogs`, `types.CreateBloom`, `crypto.CreateAddress`, `AddBalance`.
Logs are opaque (`Nat`). -/
structure ExecOps (S E : Type) where
  applyMessage : S → Header → Tx → Int → Except E (Int × S × Int)
  startRecord : S → Nat → Nat → Nat → S
  intermediateRoot : S → Nat
  getLogs : S → Nat → List Nat
  createBloom : List Nat → Nat
  createAddress : Nat → Nat → Nat
  addBalance : S → Nat → Int → S

/-- `ApplyTransaction` (state_processor.go lines 66–89).  On executor
failure the error is returned and `usedGas` is not touched.  On success
`usedGas` is increased by the gas consumed and a receipt is built from
the intermediate state root, the new cumulative gas, the transaction
hash, the per-transaction gas, the contract address when the message
creates a contract, the recorded logs, and a bloom over those logs.
Returns (receipt, logs, gas, new statedb, new usedGas, new gas pool). -/
def ApplyTransaction {S E : Type} (ops : ExecOps S E) (statedb : S)
    (header : Header) (tx : Tx) (usedGas : Int) (gp : Int) :
    Except E (Receipt × List Nat × Int × S × Int × Int) :=
  match ops.applyMessage statedb header tx gp with
  | .error e => .error e
  | .ok (gas, s1, gp1) =>
      let usedGas1 := usedGas + gas
      let logs := ops.getLogs s1 tx.hash
      let receipt : Receipt :=
        { postState := ops.intermediateRoot s1
          cumulativeGasUsed := usedGas1
          txHash := tx.hash
          gasUsed := gas
          contractAddress :=
            if MessageCreatesContract tx then
              some (ops.createAddress tx.sender tx.nonce)
            else none
          logs := logs
          bloom := ops.createBloom logs }
      .ok (receipt, logs, gas, s1, usedGas1, gp1)

/-- Result of the transaction loop inside `Process`: either the loop
finished (receipts, accumulated logs, total gas, statedb, gas pool) or
some transaction failed (total gas so far and the executor's error). -/
inductive LoopOut (S E : Type) where
  | done (receipts : List Receipt) (logs : List Nat) (total : Int) (s : S) (gp : Int)
  | failed (total : Int) (e : E)
deriving DecidableEq, Repr

/-- Result of `Process`, mirroring the Go return tuple
`(types.Receipts, vm.Logs, *big.Int, error)`: `.ok` is the success
tuple (plus the final statedb); `.fail total e` is
`(nil, nil, totalUsedGas, err)` — no receipt list and no log list;
`.panicked` models a Go runtime panic (index out of range inside
`PayRewards`), which `Process` provably never produces. -/
inductive ProcOut (S E : Type) where
  | ok (receipts : List Receipt) (logs : List Nat) (total : Int) (s : S)
  | fail (total : Int) (e : E)
  | panicked
deriving DecidableEq, Repr

/-- The transaction loop of `Process` (state_processor.go lines 44–52):
for each transaction, `StartRecord` with the transaction hash, block
hash, and index, then `ApplyTransaction`; a failure aborts the loop with
the error and the gas total so far; otherwise append the receipt and
extend the log list. -/
def processLoop {S E : Type} (ops : ExecOps S E) (header : Header) (blockHash : Nat) :
    List Tx → Nat → S → Int → Int → List Receipt → List Nat → LoopOut S E
  | [], _, s, gp, total, receipts, allLogs => .done receipts allLogs total s gp
  | tx :: rest, i, s, gp, total, receipts, allLogs =>
      let s0 := ops.startRecord s tx.hash blockHash i
      match ApplyTransaction ops s0 header tx total gp with
      | .error e => .failed total e
      | .ok (receipt, logs, _gas, s1, total1, gp1) =>
          processLoop ops header blockHash rest (i + 1) s1 gp1 total1
            (receipts ++ [receipt]) (allLogs ++ logs)

/-- `Process` (state_processor.go lines 34–59): run the transaction loop
with a gas pool sized to the block's gas limit; on a transaction failure
return `(nil, nil, totalUsedGas, err)`; otherwise accumulate the rewards
and pay them, then return the receipts, logs and total gas. -/
def Process {S E : Type} (ops : ExecOps S E) (blockReward : Int)
    (block : Block) (statedb : S) : ProcOut S E :=
  match processLoop ops block.header block.hash block.txs 0 statedb
      block.gasLimit 0 [] [] with
  | .failed total e => .fail total e
  | .done receipts allLogs total s _gp =>
      let rewards := (AccumulateRewards s blockReward block.header block.uncles).1
      match PayRewards ops.addBalance s block.header block.uncles rewards with
      | some s1 => .ok receipts allLogs total s1
      | none => .panicked

/-- A small concrete executor instance used to exercise the theorems
about `Process` on closed inputs: the statedb is a counter, every
message costs gas 3, and a transaction whose hash is 2 fails. -/
def demoOps : ExecOps Nat Unit where
  applyMessage := fun s _ tx gp =>
    if tx.hash = 2 then .error () else .ok (3, s + 1, gp - 3)
  startRecord := fun s _ _ _ => s
  intermediateRoot := fun s => s
  getLogs := fun _ h => [h]
  createBloom := fun l => l.length
  createAddress := fun a n => a + n
  addBalance := fun s _ _ => s

/-- A two-transaction block on which `demoOps` succeeds. -/
def demoBlockOk : Block :=
  ⟨⟨5, 1, 100⟩, 9, [⟨10, 7, 0, some 8⟩, ⟨11, 7, 1, none⟩], []⟩

/-- The receipts `Process demoOps` produces on `demoBlockOk`. -/
def demoReceipts : List Receipt :=
  [⟨1, 3, 10, 3, none, [10], 1⟩, ⟨2, 6, 11, 3, some 8, [11], 1⟩]

/-! ## The persisted key-value store

The startup maintenance functions (`upgradeChainDatabase`,
`addMipmapBloomBins`) run against the node's LevelDB store.  The store is
modelled as an association list of typed keys and values, plus three
lists of keys on which the underlying store is injected to fail (so that
error-propagation claims can be stated), plus a journal that records
every successful put/delete in order (the analogue of the write log,
used to state in which order records are migrated).  The `core` package
helpers called by the embedded functions (`GetBlockByHashOld`, `WriteTd`,
`WriteBody`, `WriteHeader`, `GetBlock`, `GetCanonicalHash`,
`GetBlockReceipts`, `WriteMipmapBloom`, `GetHeadBlockHash`) are not among
the embedded files; they are modelled from the spec where marked. -/

/-- The kinds of store keys the embedded code touches: the `LastBlock`
head pointer, legacy combined records `block-hash-<hash>`, the split
total-difficulty/body/header records, the `setting-mipmap-version`
marker, canonical-hash-by-number entries, per-block receipts, mipmap
bloom bins by block number, and arbitrary unrelated keys. -/
inductive Key where
  | lastBlock
  | blockHash (h : Nat)
  | tdKey (h : Nat)
  | bodyKey (h : Nat)
  | headerKey (h : Nat)
  | mipmapVersion
  | canonicalKey (n : Nat)
  | receiptsKey (h : Nat)
  | bloomBin (n : Nat)
  | otherKey (n : Nat)
deriving DecidableEq, Repr

/-- A block header as persisted: its number and its content hash
(`Header.Hash()` is deterministic in the header, so it is carried as a
field). -/
structure BHeader where
  number : Nat
  hashVal : Nat
deriving DecidableEq, Repr

/-- `types.Body`: transactions and uncles (opaque transactions). -/
structure BlockBody where
  txs : List Nat
  uncles : List BHeader
deriving DecidableEq, Repr

/-- A legacy combined block record (pre-migration on-disk format):
header, body and the deprecated embedded total difficulty. -/
structure OldBlock where
  header : BHeader
  txs : List Nat
  uncles : List BHeader
  deprecatedTd : Int
deriving DecidableEq, Repr

/-- `block.Hash()`: the hash of the block's header. -/
def OldBlock.hash (b : OldBlock) : Nat := b.header.hashVal

/-- Typed store values. -/
inductive Val where
  | hashV (h : Nat)
  | blockV (b : OldBlock)
  | tdV (t : Int)
  | bodyV (b : BlockBody)
  | headerV (h : BHeader)
  | versionV (v : Nat)
  | receiptsV (blooms : List Nat)
  | bloomV (b : Nat)
deriving DecidableEq, Repr

/-- A put or delete applied to the store, as recorded by the journal. -/
inductive DbEvent where
  | putE (k : Key) (v : Val)
  | delE (k : Key)
deriving DecidableEq, Repr

/-- The key an event touches. -/
def DbEvent.key : DbEvent → Key
  | .putE k _ => k
  | .delE k => k

/-- The store: its contents, the keys on which a get/put/delete is
injected to fail with an I/O error, and the journal of successful
puts/deletes in the order they were applied. -/
structure Store where
  data : List (Key × Val)
  failGets : List Key
  failPuts : List Key
  failDels : List Key
  journal : List DbEvent
deriving DecidableEq, Repr

/-- Errors surfaced by the store layer: a missing key, an injected I/O
failure, the corruption error built by `addMipmapBloomBins`
(`chain db corrupted. Could not find block i`), and a Go nil-pointer
dereference (runtime panic) modelled as an explicit error. -/
inductive DbErr where
  | notFound
  | ioError
  | corrupt (n : Nat)
  | nilDeref
deriving DecidableEq, Repr

/-- First value bound to `k` in an association list. -/
def assocFind (k : Key) : List (Key × Val) → Option Val
  | [] => none
  | (k', v) :: rest => if k' = k then some v else assocFind k rest

/-- Remove every binding of `k`. -/
def assocErase (k : Key) (l : List (Key × Val)) : List (Key × Val) :=
  l.filter (fun p => p.1 != k)

/-- `db.Get`: an injected failure or a missing key is an error
(LevelDB reports a missing key as `ErrNotFound`). -/
def dbGet (db : Store) (k : Key) : Except DbErr Val :=
  if db.failGets.contains k then .error .ioError
  else match assocFind k db.data with
    | some v => .ok v
    | none => .error .notFound

/-- `db.Put`: on success, bind `k` and journal the write. -/
def dbPut (db : Store) (k : Key) (v : Val) : Except DbErr Store :=
  if db.failPuts.contains k then .error .ioError
  else .ok { db with
    data := (k, v) :: assocErase k db.data
    journal := db.journal ++ [DbEvent.putE k v] }

/-- `db.Delete`: on success, drop `k` and journal the delete. -/
def dbDelete (db : Store) (k : Key) : Except DbErr Store :=
  if db.failDels.contains k then .error .ioError
  else .ok { db with
    data := assocErase k db.data
    journal := db.journal ++ [DbEvent.delE k] }

/-- `common.BytesToHash` applied to a stored value: a stored hash is
itself; any other byte content deterministically maps to some hash,
modelled as `0`. -/
def bytesToHash : Val → Nat
  | .hashV h => h
  | _ => 0

/-- Modelled from the spec (§4.6, `core.GetBlockByHashOld` is not among
the embedded files): read the legacy combined record
`block-hash-<hash>`; any failure (missing key, I/O error, undecodable
content) yields `nil`. -/
def GetBlockByHashOld (db : Store) (h : Nat) : Option OldBlock :=
  match dbGet db (Key.blockHash h) with
  | .ok (.blockV b) => some b
  | _ => none

/-- Modelled from the spec (§4.6): write the split total-difficulty
record for a block hash. -/
def WriteTd (db : Store) (h : Nat) (td : Int) : Except DbErr Store :=
  dbPut db (Key.tdKey h) (.tdV td)

/-- Modelled from the spec (§4.6): write the split body record. -/
def WriteBody (db : Store) (h : Nat) (b : BlockBody) : Except DbErr Store :=
  dbPut db (Key.bodyKey h) (.bodyV b)

/-- Modelled from the spec (§4.6): write the split header record, keyed
by the header's hash. -/
def WriteHeader (db : Store) (h : BHeader) : Except DbErr Store :=
  dbPut db (Key.headerKey h.hashVal) (.headerV h)

/-- One iteration body of the migration loop (lines 699–713 of the
embedded file) for a legacy key `block-hash-<h>`: re-load the block from
the live store, write its three split records, then delete the combined
record.  A vanished record makes `block.DeprecatedTd()` dereference nil
(a Go panic), modelled as `.nilDeref`. -/
def migrateOldBlock (db : Store) (h : Nat) : Except DbErr Store :=
  match GetBlockByHashOld db h with
  | none => .error .nilDeref
  | some block =>
      match WriteTd db block.hash block.deprecatedTd with
      | .error e => .error e
      | .ok db1 =>
          match WriteBody db1 block.hash ⟨block.txs, block.uncles⟩ with
          | .error e => .error e
          | .ok db2 =>
              match WriteHeader db2 block.header with
              | .error e => .error e
              | .ok db3 => dbDelete db3 (Key.blockHash h)

/-- The iterator loop of `upgradeChainDatabase` (lines 690–714): walk the
snapshot of the store's keys, skip everything that is not a combined
block record, skip the head's key, and migrate every other combined
record, aborting on the first failure. -/
def upgradeLoop (head : Nat) : Store → List Key → Except DbErr Store
  | db, [] => .ok db
  | db, k :: rest =>
      match k with
      | .blockHash h =>
          if h = head then upgradeLoop head db rest
          else
            match migrateOldBlock db h with
            | .error e => .error e
            | .ok db1 => upgradeLoop head db1 rest
      | _ => upgradeLoop head db rest

/-- `upgradeChainDatabase` (lines 674–729 of the embedded file).  A
failing read of `LastBlock` returns `nil` (success); a head whose legacy
combined record is absent returns `nil`; otherwise every non-head
combined record is split and deleted, and the head block is split last
(its combined record is not deleted).  The iterator walks a snapshot of
the keys present when the loop starts while reads and writes go to the
live store; the store is the LevelDB instance, so the type assertion in
the source always succeeds. -/
def upgradeChainDatabase (db : Store) : Except DbErr Store :=
  match dbGet db Key.lastBlock with
  | .error _ => .ok db
  | .ok v =>
      let head := bytesToHash v
      match GetBlockByHashOld db head with
      | none => .ok db
      | some _ =>
          match upgradeLoop head db (db.data.map Prod.fst) with
          | .error e => .error e
          | .ok db1 =>
              match GetBlockByHashOld db1 head with
              | none => .error .nilDeref
              | some current =>
                  match WriteTd db1 current.hash current.deprecatedTd with
                  | .error e => .error e
                  | .ok db2 =>
                      match WriteBody db2 current.hash
                          ⟨current.txs, current.uncles⟩ with
                      | .error e => .error e
                      | .ok db3 => WriteHeader db3 current.header

/-- The target mipmap schema version (`mipmapVersion` constant). -/
def mipmapVersionConst : Nat := 2

/-- Modelled from the spec (§4.7, `core.GetHeadBlockHash` is not among
the embedded files): resolve the head pointer; any failure yields the
zero hash. -/
def GetHeadBlockHash (db : Store) : Nat :=
  match dbGet db Key.lastBlock with
  | .ok v => bytesToHash v
  | .error _ => 0

/-- Modelled from the spec (§4.7): resolve a block in the current
(split) format; only its header (for `NumberU64`) is needed here. -/
def GetBlock (db : Store) (h : Nat) : Option BHeader :=
  match dbGet db (Key.headerKey h) with
  | .ok (.headerV hd) => some hd
  | _ => none

/-- `core.GetCanonicalHash`, modelled from the spec (§4.7): the canonical
hash for a block number, or the zero hash when absent (the source
compares against `common.Hash{}`). -/
def GetCanonicalHash (db : Store) (n : Nat) : Nat :=
  match dbGet db (Key.canonicalKey n) with
  | .ok (.hashV h) => h
  | _ => 0

/-- Modelled from the spec (§4.7): the receipts (their blooms) stored
for a block hash; failures yield the empty list. -/
def GetBlockReceipts (db : Store) (h : Nat) : List Nat :=
  match dbGet db (Key.receiptsKey h) with
  | .ok (.receiptsV rs) => rs
  | _ => []

/-- The bloom bin currently stored for a block number (zero when the
bin is absent or holds other content). -/
def mipmapOldBin (db : Store) (n : Nat) : Nat :=
  match assocFind (Key.bloomBin n) db.data with
  | some (.bloomV b) => b
  | _ => 0

/-- Modelled from the spec (§3, §4.7): write the mipmap bloom bin for a
block number by OR-ing the block's receipt blooms into the existing
bin. -/
def WriteMipmapBloom (db : Store) (n : Nat) (blooms : List Nat) : Except DbErr Store :=
  dbPut db (Key.bloomBin n) (.bloomV (blooms.foldl Nat.lor (mipmapOldBin db n)))

/-- The store after one successful bloom-bin write of the walk. -/
def bloomStep (db : Store) (j : Nat) : Store :=
  { db with
    data := (Key.bloomBin j, Val.bloomV
        ((GetBlockReceipts db (GetCanonicalHash db j)).foldl Nat.lor
          (mipmapOldBin db j))) :: assocErase (Key.bloomBin j) db.data
    journal := db.journal ++ [DbEvent.putE (Key.bloomBin j)
      (Val.bloomV ((GetBlockReceipts db (GetCanonicalHash db j)).foldl
        Nat.lor (mipmapOldBin db j)))] }

/-- The walk of `addMipmapBloomBins` over block numbers (lines 762–768):
for each number, resolve the canonical hash; the zero hash aborts with
the corruption error; otherwise write the bloom bin (the source ignores
the write's result). -/
def mipmapWalk : Store → List Nat → Option DbErr × Store
  | db, [] => (none, db)
  | db, i :: rest =>
      let h := GetCanonicalHash db i
      if h = 0 then (some (.corrupt i), db)
      else
        let db1 :=
          match WriteMipmapBloom db i (GetBlockReceipts db h) with
          | .ok d => d
          | .error _ => db
        mipmapWalk db1 rest

/-- The version check opening `addMipmapBloomBins` (lines 736–743): the
read's error is ignored (`data, _ = db.Get(...)`), and only a stored,
decodable version equal to the target counts as current. -/
def mipmapVersionOk (db : Store) : Bool :=
  match dbGet db Key.mipmapVersion with
  | .ok (.versionV v) => v == mipmapVersionConst
  | _ => false

/-- `addMipmapBloomBins` (lines 731–770 of the embedded file).  A stored
current version short-circuits; a clean database (no head block) is not
walked; otherwise block numbers `0..head` are walked in order.  The
deferred block persists the version marker only when the body produced
no error, propagating the marker write's failure. -/
def addMipmapBloomBins (db : Store) : Option DbErr × Store :=
  if mipmapVersionOk db then (none, db)
  else
    let bodyRes :=
      match GetBlock db (GetHeadBlockHash db) with
      | none => (none, db)
      | some latest => mipmapWalk db (List.range (latest.number + 1))
    match bodyRes with
    | (none, db1) =>
        match dbPut db1 Key.mipmapVersion (.versionV mipmapVersionConst) with
        | .ok db2 => (none, db2)
        | .error e => (some e, db1)
    | (some e, db1) => (some e, db1)

/-- Every combined-record entry of the store holds a block record stored
under its own hash (a well-formed legacy store). -/
def blockEntryOk : Key × Val → Bool
  | (.blockHash h, .blockV b) => b.hash == h
  | (.blockHash _, _) => false
  | (_, _) => true

/-- No injected store failures. -/
def NoFail (db : Store) : Prop :=
  db.failGets = [] ∧ db.failPuts = [] ∧ db.failDels = []

/-- The head block of the small legacy demo store (hash 1). -/
def demoHeadBlock : OldBlock := ⟨⟨5, 1⟩, [], [], 9⟩

/-- A second legacy block for the demo store (hash 2). -/
def demoOtherBlock : OldBlock := ⟨⟨4, 2⟩, [6], [], 7⟩

/-- A small failure-free legacy-format store: head pointer, the head's
combined record, one further combined record, one unrelated key. -/
def demoLegacyStore : Store :=
  { data := [(Key.lastBlock, .hashV 1),
             (Key.blockHash 1, .blockV demoHeadBlock),
             (Key.blockHash 2, .blockV demoOtherBlock),
             (Key.canonicalKey 0, .hashV 2)]
    failGets := []
    failPuts := []
    failDels := []
    journal := [] }

/-- A store for exercising the bloom-index builder: head block number 2
(hash 5), canonical hash present for number 0 but missing for 1. -/
def demoBloomStore : Store :=
  { data := [(Key.lastBlock, .hashV 5),
             (Key.headerKey 5, .headerV ⟨2, 5⟩),
             (Key.canonicalKey 0, .hashV 7)]
    failGets := []
    failPuts := []
    failDels := []
    journal := [] }

/-- A legacy store whose `LastBlock` read is injected to fail. -/
def demoFailGetStore : Store :=
  { data := [(Key.lastBlock, .hashV 1),
             (Key.blockHash 1, .blockV demoHeadBlock)]
    failGets := [Key.lastBlock]
    failPuts := []
    failDels := []
    journal := [] }

/-- The legacy demo store with the body write of the non-head block
(hash 2) injected to fail. -/
def demoFailBodyStore : Store :=
  { data := [(Key.lastBlock, .hashV 1),
             (Key.blockHash 1, .blockV demoHeadBlock),
             (Key.blockHash 2, .blockV demoOtherBlock),
             (Key.canonicalKey 0, .hashV 2)]
    failGets := []
    failPuts := [Key.bodyKey 2]
    failDels := []
    journal := [] }

/-- A clean store whose mipmap version-marker write is injected to
fail. -/
def demoFailVersionStore : Store :=
  { data := []
    failGets := []
    failPuts := [Key.mipmapVersion]
    failDels := []
    journal := [] }

/-- A one-block store (head number 0, hash 5) whose version-marker
write is injected to fail while the walk itself succeeds. -/
def demoVerWalkStore : Store :=
  { data := [(Key.lastBlock, .hashV 5),
             (Key.headerKey 5, .headerV ⟨0, 5⟩),
             (Key.canonicalKey 0, .hashV 7)]
    failGets := []
    failPuts := [Key.mipmapVersion]
    failDels := []
    journal := [] }

/-- `demoVerWalkStore` after its one successful bloom-bin write. -/
def demoVerWalkedStore : Store :=
  { data := [(Key.bloomBin 0, .bloomV 0),
             (Key.lastBlock, .hashV 5),
             (Key.headerKey 5, .headerV ⟨0, 5⟩),
             (Key.canonicalKey 0, .hashV 7)]
    failGets := []
    failPuts := [Key.mipmapVersion]
    failDels := []
    journal := [DbEvent.putE (Key.bloomBin 0) (.bloomV 0)] }

/-- An empty store whose mipmap version-key read is injected to fail. -/
def demoFailVerReadStore : Store :=
  { data := []
    failGets := [Key.mipmapVersion]
    failPuts := []
    failDels := []
    journal := [] }

/-- `demoFailVerReadStore` after the version marker has been written. -/
def demoMarkedStore : Store :=
  { data := [(Key.mipmapVersion, .versionV mipmapVersionConst)]
    failGets := [Key.mipmapVersion]
    failPuts := []
    failDels := []
    journal := [DbEvent.putE Key.mipmapVersion (.versionV mipmapVersionConst)] }

/-- A store with one canonical hash whose bloom-bin write is injected
to fail. -/
def demoFailBinStore : Store :=
  { data := [(Key.canonicalKey 0, .hashV 7)]
    failGets := []
    failPuts := [Key.bloomBin 0]
    failDels := []
    journal := [] }

/-! ## Theorems: reward accumulation and payment -/

/-- The uncle loop leaves the shared cell `r` holding `BlockReward / 32`
whenever at least one uncle was processed, adds `BlockReward / 32` to the
miner cell once per uncle, and appends one `r` pointer per uncle. -/
theorem accRewardsLoop_spec (R N : Int) (us : List Header) :
    ∀ (rv mv : Int) (cells : List RCell),
      accRewardsLoop R N us rv mv cells =
        (if us.isEmpty then rv else R.ediv 32,
         mv + us.length * R.ediv 32,
         cells ++ us.map (fun _ => RCell.r)) := by
  induction us with
  | nil => intro rv mv cells; simp [accRewardsLoop]
  | cons u t ih =>
      intro rv mv cells
      rw [accRewardsLoop, ih]
      refine congrArg₂ Prod.mk (by simp) (congrArg₂ Prod.mk ?_ (by simp))
      simp only [List.length_cons]
      push_cast
      ring

/-- The reward list `AccumulateRewards` actually returns: one shared
value `BlockReward / 32` (Euclidean division, as `big.Int.Div`) for
every uncle — all uncle entries alias the one cell `r`, whose last
assignment is `r.Div(BlockReward, big32)` — followed by the miner entry
`BlockReward + k * (BlockReward / 32)`. -/
theorem accumulateRewards_fst {S : Type} (s : S) (R : Int) (h : Header)
    (us : List Header) :
    (AccumulateRewards s R h us).1 =
      us.map (fun _ => R.ediv 32) ++ [R + us.length * R.ediv 32] := by
  unfold AccumulateRewards
  rw [accRewardsLoop_spec]
  cases us with
  | nil => simp
  | cons u t => simp [List.map_map, Function.comp]

/-- C6: `AccumulateRewards` performs no mutation of the world state: the
statedb it is handed comes back identical (both `AddBalance` calls in
its body are commented out; it is a pure computation). -/
theorem accumulateRewards_no_mutation {S : Type} (s : S) (R : Int)
    (h : Header) (us : List Header) :
    (AccumulateRewards s R h us).2 = s := by
  unfold AccumulateRewards
  rcases accRewardsLoop R h.number us 0 R [] with ⟨rv, mv, cells⟩
  rfl

/-- C1 (evaluation at the spec's example): header number 10, one uncle
at number 9, `BlockReward = 5`.  The spec's reward list (uncle formula
with truncating division) is `[4, 5]`, but the code returns `[0, 5]` —
every uncle entry aliases the single cell `r`, which is overwritten with
`BlockReward / 32 = 0` after being appended — and `PayRewards` therefore
credits the uncle coinbase (address 2) with 0 and the block coinbase
(address 1) with 5. -/
theorem rewards_block10_uncle9_eval :
    (AccumulateRewards (S := Balances) (fun _ => 0) 5 ⟨10, 1, 0⟩ [⟨9, 2, 0⟩]).1 = [0, 5] ∧
    specRewardList 5 ⟨10, 1, 0⟩ [⟨9, 2, 0⟩] = [4, 5] ∧
    Option.map (fun s => (s 2, s 1))
      (PayRewards addBalance (fun _ => 0) ⟨10, 1, 0⟩ [⟨9, 2, 0⟩]
        ((AccumulateRewards (S := Balances) (fun _ => 0) 5 ⟨10, 1, 0⟩ [⟨9, 2, 0⟩]).1))
      = some (0, 5) := by
  decide

/-- C2 (counterexample): at header number 10, one uncle at number 9,
`BlockReward = 5`, the returned list `[0, 5]` differs from the
specification's formula list `[4, 5]` (per-uncle
`(u.number + 8 - h.number) * BlockReward / 8` truncating toward zero). -/
theorem accumulateRewards_differs_from_spec_formula :
    (AccumulateRewards (S := Unit) () 5 ⟨10, 1, 0⟩ [⟨9, 2, 0⟩]).1 = [0, 5] ∧
    specRewardList 5 ⟨10, 1, 0⟩ [⟨9, 2, 0⟩] = [4, 5] ∧
    (AccumulateRewards (S := Unit) () 5 ⟨10, 1, 0⟩ [⟨9, 2, 0⟩]).1 ≠
      specRewardList 5 ⟨10, 1, 0⟩ [⟨9, 2, 0⟩] := by
  decide

/-- C2 (amended): for every header and uncle list, `AccumulateRewards`
returns a list of length `k + 1` whose first `k` entries all hold the
same value `BlockReward / 32` (every uncle entry aliases the single cell
`r`, last assigned `r.Div(BlockReward, big32)`; the division is
`big.Int.Div`, i.e. Euclidean, flooring for the positive divisors used
here — not truncation toward zero), and whose final entry is
`BlockReward + k * (BlockReward / 32)`. -/
theorem accumulateRewards_amended {S : Type} (s : S) (R : Int) (h : Header)
    (us : List Header) :
    (AccumulateRewards s R h us).1 =
      us.map (fun _ => R.ediv 32) ++ [R + us.length * R.ediv 32] :=
  accumulateRewards_fst s R h us

/-- The uncle loop of `PayRewards` on the concrete balance map: with
enough rewards it succeeds, consumes one reward per uncle, and each
address ends up credited with the sum of the rewards paired to its
uncles. -/
theorem payUncleLoop_balances (us : List Header) :
    ∀ (rs : List Int) (s : Balances), us.length ≤ rs.length →
      ∃ s1, payUncleLoop addBalance s us rs = some (s1, rs.drop us.length) ∧
        ∀ a, s1 a = s a
          + (((us.zip rs).filter (fun p => p.1.coinbase == a)).map Prod.snd).sum := by
  induction us with
  | nil => intro rs s _; exact ⟨s, rfl, by simp⟩
  | cons u t ih =>
      intro rs s hlen
      cases rs with
      | nil => simp at hlen
      | cons r rest =>
          obtain ⟨s1, heq, hval⟩ := ih rest (addBalance s u.coinbase r)
            (by simpa using hlen)
          refine ⟨s1, by simpa [payUncleLoop] using heq, ?_⟩
          intro a
          rw [hval a]
          by_cases hc : a = u.coinbase
          · simp [addBalance, hc, List.filter_cons, add_assoc]
          · simp [addBalance, hc, List.filter_cons, Ne.symm hc]

/-- C5: for every reward list produced by `AccumulateRewards`,
`PayRewards` succeeds and credits each uncle coinbase with the rewards
paired to it (uncle order, one entry per uncle) and the block's coinbase
with the final (`k`-th) reward; every other address's balance is
unchanged. -/
theorem payRewards_credits_accumulated (s : Balances) (R : Int)
    (hdr : Header) (us : List Header) (rs : List Int)
    (hrs : rs = (AccumulateRewards s R hdr us).1) :
    ∃ s', PayRewards addBalance s hdr us rs = some s' ∧
      (∀ a, s' a = s a
        + (((us.zip rs).filter (fun p => p.1.coinbase == a)).map Prod.snd).sum
        + (if a = hdr.coinbase then rs.getD us.length 0 else 0)) ∧
      (∀ a, a ∉ us.map Header.coinbase → a ≠ hdr.coinbase → s' a = s a) := by
  have hshape : rs = us.map (fun _ => R.ediv 32) ++ [R + us.length * R.ediv 32] := by
    rw [hrs, accumulateRewards_fst]
  have hlen : us.length ≤ rs.length := by
    rw [hshape]; simp
  obtain ⟨s1, heq, hval⟩ := payUncleLoop_balances us rs s hlen
  have hdrop : rs.drop us.length = [R + us.length * R.ediv 32] := by
    rw [hshape]
    have h2 := List.drop_left (us.map (fun _ : Header => R.ediv 32))
      [R + us.length * R.ediv 32]
    simp only [List.length_map] at h2
    exact h2
  have hgetD : rs.getD us.length 0 = R + us.length * R.ediv 32 := by
    rw [hshape, List.getD_append_right _ _ _ _ (by simp)]
    simp
  refine ⟨addBalance s1 hdr.coinbase (R + us.length * R.ediv 32), ?_, ?_, ?_⟩
  · rw [PayRewards, heq, hdrop]
  · intro a
    by_cases hc : a = hdr.coinbase
    · have h1 : addBalance s1 hdr.coinbase (R + us.length * R.ediv 32) a
          = s1 a + (R + us.length * R.ediv 32) := by
        simp [addBalance, hc]
      rw [h1, hval, if_pos hc, hgetD]
    · have h1 : addBalance s1 hdr.coinbase (R + us.length * R.ediv 32) a
          = s1 a := by
        simp [addBalance, hc]
      rw [h1, hval, if_neg hc, add_zero]
  · intro a hu hh
    have hfil :
        (us.zip rs).filter (fun p => p.1.coinbase == a) = [] := by
      rw [List.filter_eq_nil_iff]
      intro p hp
      have hmem := List.of_mem_zip hp
      intro hbeq
      exact hu (by
        refine List.mem_map.mpr ⟨p.1, hmem.1, ?_⟩
        exact beq_iff_eq.mp hbeq)
    simp [addBalance, hh, hval, hfil]

/-- Witness for `payRewards_credits_accumulated` at the spec's example
block (header 10 with coinbase 1, one uncle 9 with coinbase 2,
`BlockReward = 5`, empty balances). -/
theorem payRewards_credits_accumulated_witness :
    ∃ s', PayRewards addBalance (fun _ => (0 : Int)) ⟨10, 1, 0⟩ [⟨9, 2, 0⟩]
        ((AccumulateRewards (S := Balances) (fun _ => 0) 5 ⟨10, 1, 0⟩
          [⟨9, 2, 0⟩]).1) = some s' ∧
      (∀ a, s' a = (0 : Int)
        + ((([(⟨9, 2, 0⟩ : Header)].zip
            ((AccumulateRewards (S := Balances) (fun _ => 0) 5 ⟨10, 1, 0⟩
              [⟨9, 2, 0⟩]).1)).filter
            (fun p => p.1.coinbase == a)).map Prod.snd).sum
        + (if a = (⟨10, 1, 0⟩ : Header).coinbase then
            ((AccumulateRewards (S := Balances) (fun _ => 0) 5 ⟨10, 1, 0⟩
              [⟨9, 2, 0⟩]).1).getD ([(⟨9, 2, 0⟩ : Header)].length) 0
          else 0)) ∧
      (∀ a, a ∉ [(⟨9, 2, 0⟩ : Header)].map Header.coinbase →
        a ≠ (⟨10, 1, 0⟩ : Header).coinbase → s' a = (0 : Int)) :=
  payRewards_credits_accumulated (fun _ => 0) 5 ⟨10, 1, 0⟩ [⟨9, 2, 0⟩] _ rfl

/-! ## Theorems: block processing -/

/-- Inverting a successful `ApplyTransaction`: the receipt carries the
transaction's hash and the gas the executor reported, and the cumulative
counter grows by exactly that gas. -/
theorem applyTransaction_ok {S E : Type} (ops : ExecOps S E) (s : S)
    (hdr : Header) (tx : Tx) (usedGas gp : Int) (r : Receipt)
    (logs : List Nat) (gas : Int) (s1 : S) (usedGas1 gp1 : Int)
    (h : ApplyTransaction ops s hdr tx usedGas gp
      = .ok (r, logs, gas, s1, usedGas1, gp1)) :
    r.txHash = tx.hash ∧ r.gasUsed = gas ∧ usedGas1 = usedGas + gas := by
  unfold ApplyTransaction at h
  cases hm : ops.applyMessage s hdr tx gp with
  | error e => rw [hm] at h; exact nomatch h
  | ok v =>
      obtain ⟨g, s', gp'⟩ := v
      rw [hm] at h
      simp only [Except.ok.injEq, Prod.mk.injEq] at h
      obtain ⟨hr, -, hgas, -, hused, -⟩ := h
      subst hr hgas hused
      exact ⟨rfl, rfl, rfl⟩

/-- The transaction loop, when it finishes, has appended one receipt per
transaction in list order and added exactly the receipts' gas to the
running total. -/
theorem processLoop_done_spec {S E : Type} (ops : ExecOps S E)
    (hdr : Header) (bh : Nat) (txs : List Tx) :
    ∀ (i : Nat) (s : S) (gp total : Int) (receipts : List Receipt)
      (allLogs : List Nat) (rs : List Receipt) (ls : List Nat)
      (tot : Int) (s' : S) (gp' : Int),
      processLoop ops hdr bh txs i s gp total receipts allLogs
        = .done rs ls tot s' gp' →
      ∃ newRs, rs = receipts ++ newRs ∧
        newRs.map Receipt.txHash = txs.map Tx.hash ∧
        tot = total + (newRs.map Receipt.gasUsed).sum := by
  induction txs with
  | nil =>
      intro i s gp total receipts allLogs rs ls tot s' gp' h
      rw [processLoop] at h
      simp only [LoopOut.done.injEq] at h
      obtain ⟨h1, -, h2, -, -⟩ := h
      exact ⟨[], by simp [h1.symm], by simp, by simp [h2.symm]⟩
  | cons tx rest ih =>
      intro i s gp total receipts allLogs rs ls tot s' gp' h
      rw [processLoop] at h
      cases hA : ApplyTransaction ops (ops.startRecord s tx.hash bh i)
          hdr tx total gp with
      | error e => rw [hA] at h; exact nomatch h
      | ok v =>
          obtain ⟨receipt, logs, gas, s1, total1, gp1⟩ := v
          rw [hA] at h
          obtain ⟨newRs, h1, h2, h3⟩ := ih _ _ _ _ _ _ _ _ _ _ _ h
          obtain ⟨hhash, hgas, hcum⟩ :=
            applyTransaction_ok ops _ hdr tx total gp _ _ _ _ _ _ hA
          refine ⟨receipt :: newRs, by simp [h1], by simp [h2, hhash], ?_⟩
          rw [h3, hcum]
          simp [hgas]
          ring

/-- C3: whenever `Process` succeeds, it returns one receipt per
transaction, in the transactions' list order (receipt `i` carries the
hash of transaction `i`), and the returned total gas is the sum of the
per-transaction `GasUsed` values. -/
theorem process_receipts_and_gas {S E : Type} (ops : ExecOps S E)
    (bR : Int) (block : Block) (s : S) (rs : List Receipt)
    (ls : List Nat) (tot : Int) (s' : S)
    (h : Process ops bR block s = .ok rs ls tot s') :
    rs.length = block.txs.length ∧
    rs.map Receipt.txHash = block.txs.map Tx.hash ∧
    tot = (rs.map Receipt.gasUsed).sum := by
  unfold Process at h
  cases hL : processLoop ops block.header block.hash block.txs 0 s
      block.gasLimit 0 [] [] with
  | failed t e => rw [hL] at h; exact nomatch h
  | done receipts allLogs total st gp =>
      rw [hL] at h
      dsimp only at h
      obtain ⟨newRs, h1, h2, h3⟩ :=
        processLoop_done_spec ops block.header block.hash block.txs
          _ _ _ _ _ _ _ _ _ _ _ hL
      simp only [List.nil_append] at h1
      subst h1
      cases hp : PayRewards ops.addBalance st block.header block.uncles
          ((AccumulateRewards st bR block.header block.uncles).1) with
      | none => rw [hp] at h; exact nomatch h
      | some s1 =>
          rw [hp] at h
          simp only [ProcOut.ok.injEq] at h
          obtain ⟨hrs, -, htot, -⟩ := h
          subst hrs htot
          refine ⟨?_, h2, by simpa using h3⟩
          have h4 := congrArg List.length h2
          simpa using h4

/-- Witness for `process_receipts_and_gas`: the two-transaction demo
block processed by the demo executor. -/
theorem process_receipts_and_gas_witness :
    Process demoOps 5 demoBlockOk 0 = .ok demoReceipts [10, 11] 6 2 ∧
    (demoReceipts.length = demoBlockOk.txs.length ∧
     demoReceipts.map Receipt.txHash = demoBlockOk.txs.map Tx.hash ∧
     (6 : Int) = (demoReceipts.map Receipt.gasUsed).sum) :=
  ⟨by decide,
   process_receipts_and_gas demoOps 5 demoBlockOk 0 demoReceipts [10, 11] 6 2
     (by decide)⟩

/-- The transaction loop over a concatenation: run the first part; if it
fails the whole loop fails the same way, otherwise the second part
continues from the reached state with the index advanced. -/
theorem processLoop_append {S E : Type} (ops : ExecOps S E) (hdr : Header)
    (bh : Nat) (pre rest : List Tx) :
    ∀ (i : Nat) (s : S) (gp total : Int) (receipts : List Receipt)
      (allLogs : List Nat),
      processLoop ops hdr bh (pre ++ rest) i s gp total receipts allLogs =
        match processLoop ops hdr bh pre i s gp total receipts allLogs with
        | .done rs ls tot s' gp' =>
            processLoop ops hdr bh rest (i + pre.length) s' gp' tot rs ls
        | .failed t e => .failed t e := by
  induction pre with
  | nil =>
      intro i s gp total receipts allLogs
      rw [processLoop]
      simp
  | cons tx pre ih =>
      intro i s gp total receipts allLogs
      rw [List.cons_append, processLoop, processLoop]
      cases hA : ApplyTransaction ops (ops.startRecord s tx.hash bh i)
          hdr tx total gp with
      | error e => rfl
      | ok v =>
          obtain ⟨r, lg, g, s1, t1, gp1⟩ := v
          dsimp only
          rw [ih]
          have hidx : i + 1 + pre.length = i + (tx :: pre).length := by
            simp only [List.length_cons]
            omega
          rw [hidx]

/-- C4: if executing some transaction of the block fails, `Process`
returns the pair `(nil, nil)` for receipts and logs together with the
gas total accumulated before the failing transaction and that
transaction's error — and the result does not depend on the transactions
after the failing one (they are never executed): `post` is universally
quantified and absent from the hypotheses. -/
theorem process_aborts_on_first_failure {S E : Type} (ops : ExecOps S E)
    (bR : Int) (hdr : Header) (bh : Nat) (uncs : List Header)
    (pre : List Tx) (tx : Tx) (post : List Tx) (s : S)
    (rs1 : List Receipt) (ls1 : List Nat) (t1 : Int) (s1 : S) (gp1 : Int)
    (e : E)
    (hpre : processLoop ops hdr bh pre 0 s hdr.gasLimit 0 [] []
      = .done rs1 ls1 t1 s1 gp1)
    (hfail : ops.applyMessage (ops.startRecord s1 tx.hash bh pre.length)
      hdr tx gp1 = .error e) :
    Process ops bR ⟨hdr, bh, pre ++ tx :: post, uncs⟩ s = .fail t1 e := by
  unfold Process
  show (match processLoop ops hdr bh (pre ++ tx :: post) 0 s hdr.gasLimit
      0 [] [] with
    | .failed total e => ProcOut.fail total e
    | .done receipts allLogs total st _gp =>
        let rewards := (AccumulateRewards st bR hdr uncs).1
        match PayRewards ops.addBalance st hdr uncs rewards with
        | some sx => ProcOut.ok receipts allLogs total sx
        | none => ProcOut.panicked) = ProcOut.fail t1 e
  rw [processLoop_append, hpre]
  dsimp only
  rw [processLoop]
  have hzero : (0 : Nat) + pre.length = pre.length := Nat.zero_add _
  rw [hzero]
  have hAT : ApplyTransaction ops (ops.startRecord s1 tx.hash bh pre.length)
      hdr tx t1 gp1 = .error e := by
    unfold ApplyTransaction
    rw [hfail]
  rw [hAT]

/-- Witness for `process_aborts_on_first_failure`: the demo executor
fails on the transaction with hash 2; the block carries one transaction
before it and one after it. -/
theorem process_aborts_on_first_failure_witness :
    processLoop demoOps ⟨5, 1, 100⟩ 9 [⟨10, 7, 0, some 8⟩] 0 0
        (Header.gasLimit ⟨5, 1, 100⟩) 0 [] []
      = .done [⟨1, 3, 10, 3, none, [10], 1⟩] [10] 3 1 97 ∧
    demoOps.applyMessage
      (demoOps.startRecord 1 (Tx.hash ⟨2, 7, 1, none⟩) 9
        (List.length [(⟨10, 7, 0, some 8⟩ : Tx)]))
      ⟨5, 1, 100⟩ ⟨2, 7, 1, none⟩ 97 = .error () ∧
    Process demoOps 5
      ⟨⟨5, 1, 100⟩, 9,
        [⟨10, 7, 0, some 8⟩] ++ ⟨2, 7, 1, none⟩ :: [⟨12, 7, 2, some 8⟩], []⟩
      0 = .fail 3 () :=
  ⟨by decide, by rfl,
   process_aborts_on_first_failure demoOps 5 ⟨5, 1, 100⟩ 9 []
     [⟨10, 7, 0, some 8⟩] ⟨2, 7, 1, none⟩ [⟨12, 7, 2, some 8⟩] 0
     [⟨1, 3, 10, 3, none, [10], 1⟩] [10] 3 1 97 ()
     (by decide) (by rfl)⟩

/-! ## Theorems: store basics -/

theorem assocFind_cons (k k0 : Key) (v0 : Val) (l : List (Key × Val)) :
    assocFind k ((k0, v0) :: l)
      = if k0 = k then some v0 else assocFind k l := rfl

theorem assocFind_erase_self (k : Key) (l : List (Key × Val)) :
    assocFind k (assocErase k l) = none := by
  induction l with
  | nil => rfl
  | cons p rest ih =>
      obtain ⟨pk, pv⟩ := p
      by_cases h1 : pk = k
      · simpa [assocErase, List.filter_cons, h1] using ih
      · simpa [assocErase, List.filter_cons, h1, assocFind_cons] using ih

theorem assocFind_erase_ne (k k' : Key) (l : List (Key × Val)) (h : k ≠ k') :
    assocFind k (assocErase k' l) = assocFind k l := by
  induction l with
  | nil => rfl
  | cons p rest ih =>
      obtain ⟨pk, pv⟩ := p
      by_cases h1 : pk = k'
      · subst h1
        simp only [assocErase] at ih
        simp [assocErase, List.filter_cons, assocFind_cons, Ne.symm h, ih]
      · simp only [assocErase, List.filter_cons] at ih ⊢
        simp [h1, assocFind_cons, ih]

theorem assocFind_mem (k : Key) (v : Val) (l : List (Key × Val))
    (h : assocFind k l = some v) : (k, v) ∈ l := by
  induction l with
  | nil => exact nomatch h
  | cons p rest ih =>
      obtain ⟨pk, pv⟩ := p
      rw [assocFind_cons] at h
      by_cases h1 : pk = k
      · rw [if_pos h1] at h
        injection h with h2
        subst h1 h2
        exact List.mem_cons_self _ _
      · rw [if_neg h1] at h
        exact List.mem_cons_of_mem _ (ih h)

theorem assocFind_ne_none_of_mem_keys (k : Key) (l : List (Key × Val))
    (h : k ∈ l.map Prod.fst) : assocFind k l ≠ none := by
  induction l with
  | nil => simp at h
  | cons p rest ih =>
      obtain ⟨pk, pv⟩ := p
      rw [assocFind_cons]
      by_cases h1 : pk = k
      · simp [h1]
      · rw [if_neg h1]
        refine ih ?_
        simp only [List.map_cons, List.mem_cons] at h
        rcases h with h | h
        · exact absurd h.symm h1
        · exact h

theorem dbPut_ok (db : Store) (k : Key) (v : Val)
    (h : db.failPuts = []) :
    dbPut db k v = .ok { db with
      data := (k, v) :: assocErase k db.data
      journal := db.journal ++ [DbEvent.putE k v] } := by
  simp [dbPut, h]

theorem dbDelete_ok (db : Store) (k : Key)
    (h : db.failDels = []) :
    dbDelete db k = .ok { db with
      data := assocErase k db.data
      journal := db.journal ++ [DbEvent.delE k] } := by
  simp [dbDelete, h]

theorem dbGet_nofail (db : Store) (k : Key) (h : db.failGets = []) :
    dbGet db k = (match assocFind k db.data with
      | some v => .ok v
      | none => .error .notFound) := by
  simp [dbGet, h]

/-- One migration step on a failure-free store holding the legacy record:
it succeeds, the fail lists are untouched, exactly the block's three
split records appear and its combined record disappears (every other key
is preserved), and the journal grows by the three puts followed by the
delete. -/
theorem migrateOldBlock_spec (db : Store) (h : Nat) (b : OldBlock)
    (hg : db.failGets = [])
    (hp1 : db.failPuts.contains (Key.tdKey b.hash) = false)
    (hp2 : db.failPuts.contains (Key.bodyKey b.hash) = false)
    (hp3 : db.failPuts.contains (Key.headerKey b.hash) = false)
    (hd1 : db.failDels.contains (Key.blockHash h) = false)
    (hfind : assocFind (Key.blockHash h) db.data = some (.blockV b)) :
    ∃ db1, migrateOldBlock db h = .ok db1 ∧
      db1.failGets = db.failGets ∧ db1.failPuts = db.failPuts ∧
      db1.failDels = db.failDels ∧
      (∀ k, assocFind k db1.data =
        if k = Key.blockHash h then none
        else if k = Key.tdKey b.hash then some (.tdV b.deprecatedTd)
        else if k = Key.bodyKey b.hash then some (.bodyV ⟨b.txs, b.uncles⟩)
        else if k = Key.headerKey b.hash then some (.headerV b.header)
        else assocFind k db.data) ∧
      db1.journal = db.journal ++
        [DbEvent.putE (Key.tdKey b.hash) (.tdV b.deprecatedTd),
         DbEvent.putE (Key.bodyKey b.hash) (.bodyV ⟨b.txs, b.uncles⟩),
         DbEvent.putE (Key.headerKey b.hash) (.headerV b.header),
         DbEvent.delE (Key.blockHash h)] := by
  have hGBH : GetBlockByHashOld db h = some b := by
    rw [GetBlockByHashOld, dbGet_nofail db _ hg, hfind]
  have key : migrateOldBlock db h = .ok { db with
      data := assocErase (Key.blockHash h)
        ((Key.headerKey b.hash, Val.headerV b.header) ::
          assocErase (Key.headerKey b.hash)
            ((Key.bodyKey b.hash, Val.bodyV ⟨b.txs, b.uncles⟩) ::
              assocErase (Key.bodyKey b.hash)
                ((Key.tdKey b.hash, Val.tdV b.deprecatedTd) ::
                  assocErase (Key.tdKey b.hash) db.data)))
      journal := db.journal
        ++ [DbEvent.putE (Key.tdKey b.hash) (.tdV b.deprecatedTd)]
        ++ [DbEvent.putE (Key.bodyKey b.hash) (.bodyV ⟨b.txs, b.uncles⟩)]
        ++ [DbEvent.putE (Key.headerKey b.hash) (.headerV b.header)]
        ++ [DbEvent.delE (Key.blockHash h)] } := by
    rw [migrateOldBlock, hGBH]
    have hp3' : db.failPuts.contains (Key.headerKey b.header.hashVal)
        = false := hp3
    simp only [WriteTd, WriteBody, WriteHeader, dbPut, dbDelete,
      hp1, hp2, hp3', hd1, Bool.false_eq_true, if_false]
    rfl
  refine ⟨_, key, rfl, rfl, rfl, ?_, ?_⟩
  · intro k
    by_cases k1 : k = Key.blockHash h
    · subst k1
      simp [assocFind_erase_self]
    · rw [if_neg k1]
      by_cases k2 : k = Key.tdKey b.hash
      · subst k2
        simp [assocFind_cons, assocFind_erase_ne, assocFind_erase_self, k1]
      · rw [if_neg k2]
        by_cases k3 : k = Key.bodyKey b.hash
        · subst k3
          simp [assocFind_cons, assocFind_erase_ne, assocFind_erase_self, k1]
        · rw [if_neg k3]
          by_cases k4 : k = Key.headerKey b.hash
          · subst k4
            simp [assocFind_cons, assocFind_erase_ne,
              assocFind_erase_self, k1]
          · rw [if_neg k4]
            rw [assocFind_erase_ne _ _ _ k1]
            rw [assocFind_cons, if_neg (fun hh => k4 hh.symm)]
            rw [assocFind_erase_ne _ _ _ k4]
            rw [assocFind_cons, if_neg (fun hh => k3 hh.symm)]
            rw [assocFind_erase_ne _ _ _ k3]
            rw [assocFind_cons, if_neg (fun hh => k2 hh.symm)]
            rw [assocFind_erase_ne _ _ _ k2]
  · simp

/-- The migration loop over a snapshot of the store's keys: on a
failure-free store whose pending legacy entries are well-formed it
succeeds; keys unrelated to any migrated block are preserved; every
non-head legacy entry in the snapshot ends up split into its three
records with the combined record gone; and the journal grows only by
events about non-head blocks. -/
theorem upgradeLoop_spec (head : Nat) (ks : List Key) :
    ∀ db : Store,
      db.failGets = [] → db.failPuts = [] → db.failDels = [] →
      ks.Nodup →
      (∀ h, Key.blockHash h ∈ ks → h ≠ head →
        ∃ b : OldBlock, assocFind (Key.blockHash h) db.data
          = some (.blockV b) ∧ b.hash = h) →
      ∃ db', upgradeLoop head db ks = .ok db' ∧
        db'.failGets = db.failGets ∧ db'.failPuts = db.failPuts ∧
        db'.failDels = db.failDels ∧
        (∀ k, (∀ h, h ≠ head → Key.blockHash h ∈ ks →
            k ≠ Key.blockHash h ∧ k ≠ Key.tdKey h ∧
            k ≠ Key.bodyKey h ∧ k ≠ Key.headerKey h) →
          assocFind k db'.data = assocFind k db.data) ∧
        (∀ h b, Key.blockHash h ∈ ks → h ≠ head →
          assocFind (Key.blockHash h) db.data = some (.blockV b) →
          assocFind (Key.blockHash h) db'.data = none ∧
          assocFind (Key.tdKey h) db'.data = some (.tdV b.deprecatedTd) ∧
          assocFind (Key.bodyKey h) db'.data
            = some (.bodyV ⟨b.txs, b.uncles⟩) ∧
          assocFind (Key.headerKey h) db'.data = some (.headerV b.header)) ∧
        (∃ evs, db'.journal = db.journal ++ evs ∧
          ∀ e ∈ evs, ∃ h, h ≠ head ∧
            (DbEvent.key e = Key.blockHash h ∨ DbEvent.key e = Key.tdKey h ∨
             DbEvent.key e = Key.bodyKey h ∨
             DbEvent.key e = Key.headerKey h)) := by
  induction ks with
  | nil =>
      intro db hg hp hd _ _
      exact ⟨db, rfl, rfl, rfl, rfl, fun _ _ => rfl,
        fun h b hmem => absurd hmem (List.not_mem_nil _),
        ⟨[], by simp, by simp⟩⟩
  | cons k rest ih =>
      intro db hg hp hd hnd hun
      have hknotin : k ∉ rest := (List.nodup_cons.mp hnd).1
      have hndr : rest.Nodup := (List.nodup_cons.mp hnd).2
      by_cases hkb : ∃ h, k = Key.blockHash h
      · obtain ⟨h0, rfl⟩ := hkb
        by_cases hh : h0 = head
        · -- the head's key: skipped
          have hstep : upgradeLoop head db (Key.blockHash h0 :: rest)
              = upgradeLoop head db rest := by
            simp [upgradeLoop, hh]
          have hunr : ∀ h, Key.blockHash h ∈ rest → h ≠ head →
              ∃ b : OldBlock, assocFind (Key.blockHash h) db.data
                = some (.blockV b) ∧ b.hash = h :=
            fun h hmem hne => hun h (List.mem_cons_of_mem _ hmem) hne
          obtain ⟨db', hloop, hfg, hfp, hfd, hunt, hmig, hjour⟩ :=
            ih db hg hp hd hndr hunr
          refine ⟨db', by rw [hstep]; exact hloop, hfg, hfp, hfd,
            ?_, ?_, hjour⟩
          · intro k' hPk'
            exact hunt k' (fun h hne hmem =>
              hPk' h hne (List.mem_cons_of_mem _ hmem))
          · intro h b hmem hne hfindb
            rcases List.mem_cons.mp hmem with hcase | hcase
            · exact absurd ((Key.blockHash.inj hcase).trans hh) hne
            · exact hmig h b hcase hne hfindb
        · -- a non-head legacy key: migrate then continue
          obtain ⟨b0, hfind0, hbh0⟩ := hun h0 (List.mem_cons_self _ _) hh
          obtain ⟨db1, hmigeq, hfg1, hfp1, hfd1, hfind1, hjour1⟩ :=
            migrateOldBlock_spec db h0 b0 hg
              (by rw [hp]; rfl) (by rw [hp]; rfl) (by rw [hp]; rfl)
              (by rw [hd]; rfl) hfind0
          have hstep : upgradeLoop head db (Key.blockHash h0 :: rest)
              = upgradeLoop head db1 rest := by
            simp only [upgradeLoop, if_neg hh, hmigeq]
          have hun1 : ∀ h, Key.blockHash h ∈ rest → h ≠ head →
              ∃ b : OldBlock, assocFind (Key.blockHash h) db1.data
                = some (.blockV b) ∧ b.hash = h := by
            intro h hmem hne
            obtain ⟨b, hfb, hbb⟩ := hun h (List.mem_cons_of_mem _ hmem) hne
            have hne0 : h ≠ h0 := fun hhe => hknotin (hhe ▸ hmem)
            exact ⟨b, by simp [hfind1, hne0, hfb, hbh0], hbb⟩
          obtain ⟨db', hloop, hfg', hfp', hfd', hunt', hmig', hjour'⟩ :=
            ih db1 (hfg1.trans hg) (hfp1.trans hp) (hfd1.trans hd) hndr hun1
          refine ⟨db', by rw [hstep]; exact hloop,
            hfg'.trans hfg1, hfp'.trans hfp1, hfd'.trans hfd1, ?_, ?_, ?_⟩
          · -- untouched keys
            intro k' hPk'
            have hP0 := hPk' h0 hh (List.mem_cons_self _ _)
            have hstep1 : assocFind k' db1.data = assocFind k' db.data := by
              rw [hfind1, hbh0, if_neg hP0.1, if_neg hP0.2.1,
                if_neg hP0.2.2.1, if_neg hP0.2.2.2]
            rw [hunt' k' (fun h hne hmem =>
              hPk' h hne (List.mem_cons_of_mem _ hmem)), hstep1]
          · -- migrated blocks
            intro h b hmem hne hfindb
            rcases List.mem_cons.mp hmem with hcase | hcase
            · -- the block migrated in this step
              have hh0 : h = h0 := Key.blockHash.inj hcase
              subst hh0
              have hbb : b = b0 := by
                rw [hfind0] at hfindb
                exact (Val.blockV.inj (Option.some.inj hfindb)).symm
              subst hbb
              have huse : ∀ kx : Key,
                  (∀ h', h' ≠ head → Key.blockHash h' ∈ rest →
                    kx ≠ Key.blockHash h' ∧ kx ≠ Key.tdKey h' ∧
                    kx ≠ Key.bodyKey h' ∧ kx ≠ Key.headerKey h') →
                  assocFind kx db'.data = assocFind kx db1.data :=
                fun kx hx => hunt' kx hx
              have hne0 : ∀ h', Key.blockHash h' ∈ rest → h' ≠ h := by
                intro h' hmem' hhe
                exact hknotin (hhe ▸ hmem')
              refine ⟨?_, ?_, ?_, ?_⟩
              · rw [huse (Key.blockHash h) (fun h' hne' hmem' => by
                  have := hne0 h' hmem'
                  refine ⟨?_, by simp, by simp, by simp⟩
                  simp [this.symm])]
                simp [hfind1]
              · rw [huse (Key.tdKey h) (fun h' hne' hmem' => by
                  have := hne0 h' hmem'
                  refine ⟨by simp, ?_, by simp, by simp⟩
                  simp [this.symm])]
                rw [hfind1, hbh0]
                simp
              · rw [huse (Key.bodyKey h) (fun h' hne' hmem' => by
                  have := hne0 h' hmem'
                  refine ⟨by simp, by simp, ?_, by simp⟩
                  simp [this.symm])]
                rw [hfind1, hbh0]
                simp
              · rw [huse (Key.headerKey h) (fun h' hne' hmem' => by
                  have := hne0 h' hmem'
                  refine ⟨by simp, by simp, by simp, ?_⟩
                  simp [this.symm])]
                rw [hfind1, hbh0]
                simp
            · -- a block migrated later in the loop
              have hne0 : h ≠ h0 := fun hhe => hknotin (hhe ▸ hcase)
              have hfind1b : assocFind (Key.blockHash h) db1.data
                  = some (.blockV b) := by
                simp [hfind1, hne0, hfindb, hbh0]
              exact hmig' h b hcase hne hfind1b
          · -- journal
            obtain ⟨evs', hj', hev'⟩ := hjour'
            refine ⟨[DbEvent.putE (Key.tdKey b0.hash) (.tdV b0.deprecatedTd),
                DbEvent.putE (Key.bodyKey b0.hash)
                  (.bodyV ⟨b0.txs, b0.uncles⟩),
                DbEvent.putE (Key.headerKey b0.hash) (.headerV b0.header),
                DbEvent.delE (Key.blockHash h0)] ++ evs', ?_, ?_⟩
            · rw [hj', hjour1]
              simp
            · intro e hmem'
              rcases List.mem_append.mp hmem' with hA | hA
              · refine ⟨h0, hh, ?_⟩
                simp only [List.mem_cons, List.not_mem_nil, or_false] at hA
                rcases hA with h1 | h1 | h1 | h1
                · subst h1; right; left; simp [DbEvent.key, hbh0]
                · subst h1; right; right; left; simp [DbEvent.key, hbh0]
                · subst h1; right; right; right; simp [DbEvent.key, hbh0]
                · subst h1; left; simp [DbEvent.key]
              · exact hev' e hA
      · -- not a combined-block key: skipped by the loop
        push_neg at hkb
        have hstep : upgradeLoop head db (k :: rest)
            = upgradeLoop head db rest := by
          cases k <;> first
            | rfl
            | exact absurd rfl (hkb _)
        have hunr : ∀ h, Key.blockHash h ∈ rest → h ≠ head →
            ∃ b : OldBlock, assocFind (Key.blockHash h) db.data
              = some (.blockV b) ∧ b.hash = h :=
          fun h hmem hne => hun h (List.mem_cons_of_mem _ hmem) hne
        obtain ⟨db', hloop, hfg, hfp, hfd, hunt, hmig, hjour⟩ :=
          ih db hg hp hd hndr hunr
        refine ⟨db', by rw [hstep]; exact hloop, hfg, hfp, hfd, ?_, ?_, hjour⟩
        · intro k' hPk'
          exact hunt k' (fun h hne hmem =>
            hPk' h hne (List.mem_cons_of_mem _ hmem))
        · intro h b hmem hne hfindb
          rcases List.mem_cons.mp hmem with hcase | hcase
          · exact absurd hcase.symm (hkb h)
          · exact hmig h b hcase hne hfindb

/-- Lookup after the three split-record puts for one block. -/
theorem find_after_three_puts (l : List (Key × Val)) (hb : OldBlock)
    (k : Key) :
    assocFind k ((Key.headerKey hb.hash, Val.headerV hb.header) ::
      assocErase (Key.headerKey hb.hash)
        ((Key.bodyKey hb.hash, Val.bodyV ⟨hb.txs, hb.uncles⟩) ::
          assocErase (Key.bodyKey hb.hash)
            ((Key.tdKey hb.hash, Val.tdV hb.deprecatedTd) ::
              assocErase (Key.tdKey hb.hash) l)))
      = if k = Key.headerKey hb.hash then some (.headerV hb.header)
        else if k = Key.bodyKey hb.hash then
          some (.bodyV ⟨hb.txs, hb.uncles⟩)
        else if k = Key.tdKey hb.hash then some (.tdV hb.deprecatedTd)
        else assocFind k l := by
  by_cases k1 : k = Key.headerKey hb.hash
  · simp [k1, assocFind_cons]
  · rw [if_neg k1, assocFind_cons, if_neg (fun hh => k1 hh.symm),
      assocFind_erase_ne _ _ _ k1]
    by_cases k2 : k = Key.bodyKey hb.hash
    · simp [k2, assocFind_cons]
    · rw [if_neg k2, assocFind_cons, if_neg (fun hh => k2 hh.symm),
        assocFind_erase_ne _ _ _ k2]
      by_cases k3 : k = Key.tdKey hb.hash
      · simp [k3, assocFind_cons]
      · rw [if_neg k3, assocFind_cons, if_neg (fun hh => k3 hh.symm),
          assocFind_erase_ne _ _ _ k3]

/-- A loop pass in which every combined-block key in the snapshot is the
head's key is the identity on the store. -/
theorem upgradeLoop_skip (head : Nat) (ks : List Key) :
    ∀ db, (∀ h, Key.blockHash h ∈ ks → h = head) →
      upgradeLoop head db ks = .ok db := by
  induction ks with
  | nil => intro db _; rfl
  | cons k rest ih =>
      intro db hall
      by_cases hkb : ∃ h, k = Key.blockHash h
      · obtain ⟨h, rfl⟩ := hkb
        have hh : h = head := hall h (List.mem_cons_self _ _)
        rw [show upgradeLoop head db (Key.blockHash h :: rest)
            = upgradeLoop head db rest by simp [upgradeLoop, hh]]
        exact ih db (fun h' hm => hall h' (List.mem_cons_of_mem _ hm))
      · push_neg at hkb
        rw [show upgradeLoop head db (k :: rest)
            = upgradeLoop head db rest by
          cases k <;> first | rfl | exact absurd rfl (hkb _)]
        exact ih db (fun h' hm => hall h' (List.mem_cons_of_mem _ hm))

/-- Re-putting a value a key already holds succeeds and leaves every
lookup unchanged. -/
theorem dbPut_same (db : Store) (k : Key) (v : Val)
    (hp : db.failPuts = []) (hfind : assocFind k db.data = some v) :
    ∃ db2, dbPut db k v = .ok db2 ∧
      db2.failGets = db.failGets ∧ db2.failPuts = db.failPuts ∧
      db2.failDels = db.failDels ∧
      (∀ k', assocFind k' db2.data = assocFind k' db.data) := by
  refine ⟨_, dbPut_ok db k v hp, rfl, rfl, rfl, ?_⟩
  intro k'
  by_cases h1 : k' = k
  · subst h1
    rw [assocFind_cons, if_pos rfl]
    exact hfind.symm
  · rw [assocFind_cons, if_neg (fun hh => h1 hh.symm),
      assocFind_erase_ne _ _ _ h1]

/-- Inversion: a migration step that returned success performed all
four of its store operations, so none of them was an injected
failure. -/
theorem migrateOldBlock_ok_inversion (db : Store) (h : Nat) (b : OldBlock)
    (db1 : Store) (hg : db.failGets = [])
    (hfind : assocFind (Key.blockHash h) db.data = some (.blockV b))
    (hok : migrateOldBlock db h = .ok db1) :
    db.failPuts.contains (Key.tdKey b.hash) = false ∧
    db.failPuts.contains (Key.bodyKey b.hash) = false ∧
    db.failPuts.contains (Key.headerKey b.hash) = false ∧
    db.failDels.contains (Key.blockHash h) = false := by
  have hGBH : GetBlockByHashOld db h = some b := by
    rw [GetBlockByHashOld, dbGet_nofail db _ hg, hfind]
  rw [migrateOldBlock, hGBH] at hok
  dsimp only at hok
  rw [WriteTd, dbPut] at hok
  by_cases h1 : db.failPuts.contains (Key.tdKey b.hash) = true
  · rw [if_pos h1] at hok
    simp at hok
  · rw [if_neg h1] at hok
    dsimp only at hok
    rw [WriteBody, dbPut] at hok
    dsimp only at hok
    by_cases h2 : db.failPuts.contains (Key.bodyKey b.hash) = true
    · rw [if_pos h2] at hok
      simp at hok
    · rw [if_neg h2] at hok
      dsimp only at hok
      rw [WriteHeader, dbPut] at hok
      dsimp only at hok
      by_cases h3 : db.failPuts.contains (Key.headerKey b.header.hashVal)
          = true
      · rw [if_pos h3] at hok
        simp at hok
      · rw [if_neg h3] at hok
        dsimp only at hok
        rw [dbDelete] at hok
        dsimp only at hok
        by_cases h4 : db.failDels.contains (Key.blockHash h) = true
        · rw [if_pos h4] at hok
          simp at hok
        · exact ⟨by simpa using h1, by simpa using h2,
            by simpa using h3, by simpa using h4⟩

/-- Inversion for the migration loop: success over a snapshot of
well-formed legacy keys means none of the operations the loop performed
on any of their blocks was an injected failure, the fail lists are
unchanged, and keys unrelated to migrated blocks are preserved. -/
theorem upgradeLoop_ok_inversion (head : Nat) (ks : List Key) :
    ∀ db db1 : Store, db.failGets = [] → ks.Nodup →
      (∀ h, Key.blockHash h ∈ ks → h ≠ head →
        ∃ b : OldBlock, assocFind (Key.blockHash h) db.data
          = some (.blockV b) ∧ b.hash = h) →
      upgradeLoop head db ks = .ok db1 →
      (∀ h, Key.blockHash h ∈ ks → h ≠ head →
        db.failPuts.contains (Key.tdKey h) = false ∧
        db.failPuts.contains (Key.bodyKey h) = false ∧
        db.failPuts.contains (Key.headerKey h) = false ∧
        db.failDels.contains (Key.blockHash h) = false) ∧
      db1.failGets = db.failGets ∧ db1.failPuts = db.failPuts ∧
      db1.failDels = db.failDels ∧
      (∀ k, (∀ h, h ≠ head → Key.blockHash h ∈ ks →
          k ≠ Key.blockHash h ∧ k ≠ Key.tdKey h ∧
          k ≠ Key.bodyKey h ∧ k ≠ Key.headerKey h) →
        assocFind k db1.data = assocFind k db.data) := by
  induction ks with
  | nil =>
      intro db db1 hg _ _ hloop
      obtain rfl : db = db1 := Except.ok.inj hloop
      exact ⟨fun h hmem => absurd hmem (List.not_mem_nil _),
        rfl, rfl, rfl, fun _ _ => rfl⟩
  | cons k rest ih =>
      intro db db1 hg hnd hun hloop
      have hknotin : k ∉ rest := (List.nodup_cons.mp hnd).1
      have hndr : rest.Nodup := (List.nodup_cons.mp hnd).2
      by_cases hkb : ∃ h, k = Key.blockHash h
      · obtain ⟨h0, rfl⟩ := hkb
        by_cases hh : h0 = head
        · -- the head's key: skipped by the loop
          rw [show upgradeLoop head db (Key.blockHash h0 :: rest)
              = upgradeLoop head db rest by simp [upgradeLoop, hh]] at hloop
          obtain ⟨hfacts, hfg, hfp, hfd, hunt⟩ := ih db db1 hg hndr
            (fun h hmem hne => hun h (List.mem_cons_of_mem _ hmem) hne) hloop
          refine ⟨?_, hfg, hfp, hfd, ?_⟩
          · intro h hmem hne
            rcases List.mem_cons.mp hmem with hcase | hcase
            · exact absurd ((Key.blockHash.inj hcase).trans hh) hne
            · exact hfacts h hcase hne
          · intro k' hPk'
            exact hunt k' (fun h hne hmem =>
              hPk' h hne (List.mem_cons_of_mem _ hmem))
        · -- a migrated key
          obtain ⟨b0, hfind0, hbh0⟩ := hun h0 (List.mem_cons_self _ _) hh
          rw [show upgradeLoop head db (Key.blockHash h0 :: rest)
              = (match migrateOldBlock db h0 with
                 | .error e => .error e
                 | .ok dbx => upgradeLoop head dbx rest)
            from by simp only [upgradeLoop, if_neg hh]] at hloop
          cases hmig : migrateOldBlock db h0 with
          | error e =>
              rw [hmig] at hloop
              simp at hloop
          | ok dbm =>
              rw [hmig] at hloop
              dsimp only at hloop
              obtain ⟨hc1, hc2, hc3, hc4⟩ :=
                migrateOldBlock_ok_inversion db h0 b0 dbm hg hfind0 hmig
              obtain ⟨dbm', hmigeq, hfgm, hfpm, hfdm, hfindm, -⟩ :=
                migrateOldBlock_spec db h0 b0 hg hc1 hc2 hc3 hc4 hfind0
              have heqm : dbm' = dbm := Except.ok.inj (hmigeq.symm.trans hmig)
              rw [heqm] at hfgm hfpm hfdm hfindm
              have hunm : ∀ h, Key.blockHash h ∈ rest → h ≠ head →
                  ∃ b : OldBlock, assocFind (Key.blockHash h) dbm.data
                    = some (.blockV b) ∧ b.hash = h := by
                intro h hmem hne
                obtain ⟨b, hfb, hbb⟩ := hun h (List.mem_cons_of_mem _ hmem) hne
                have hne0 : h ≠ h0 := fun hhe => hknotin (hhe ▸ hmem)
                exact ⟨b, by simp [hfindm, hne0, hfb, hbh0], hbb⟩
              obtain ⟨hfacts, hfg, hfp, hfd, hunt⟩ :=
                ih dbm db1 (hfgm.trans hg) hndr hunm hloop
              refine ⟨?_, hfg.trans hfgm, hfp.trans hfpm,
                hfd.trans hfdm, ?_⟩
              · intro h hmem hne
                rcases List.mem_cons.mp hmem with hcase | hcase
                · have hhh : h = h0 := Key.blockHash.inj hcase
                  subst hhh
                  exact ⟨by rw [← hbh0]; exact hc1,
                    by rw [← hbh0]; exact hc2,
                    by rw [← hbh0]; exact hc3, hc4⟩
                · obtain ⟨f1, f2, f3, f4⟩ := hfacts h hcase hne
                  rw [hfpm] at f1 f2 f3
                  rw [hfdm] at f4
                  exact ⟨f1, f2, f3, f4⟩
              · intro k' hPk'
                have hP0 := hPk' h0 hh (List.mem_cons_self _ _)
                have hstep1 : assocFind k' dbm.data
                    = assocFind k' db.data := by
                  rw [hfindm, hbh0, if_neg hP0.1, if_neg hP0.2.1,
                    if_neg hP0.2.2.1, if_neg hP0.2.2.2]
                rw [hunt k' (fun h hne hmem =>
                  hPk' h hne (List.mem_cons_of_mem _ hmem)), hstep1]
      · -- not a combined-block key
        push_neg at hkb
        rw [show upgradeLoop head db (k :: rest)
            = upgradeLoop head db rest by
          cases k <;> first | rfl | exact absurd rfl (hkb _)] at hloop
        obtain ⟨hfacts, hfg, hfp, hfd, hunt⟩ := ih db db1 hg hndr
          (fun h hmem hne => hun h (List.mem_cons_of_mem _ hmem) hne) hloop
        refine ⟨?_, hfg, hfp, hfd, ?_⟩
        · intro h hmem hne
          rcases List.mem_cons.mp hmem with hcase | hcase
          · exact absurd hcase.symm (hkb h)
          · exact hfacts h hcase hne
        · intro k' hPk'
          exact hunt k' (fun h hne hmem =>
            hPk' h hne (List.mem_cons_of_mem _ hmem))

/-- Inversion for the whole migrator: success on a well-formed legacy
store means none of the operations performed for any legacy block —
non-head or head — was an injected failure. -/
theorem upgrade_ok_inversion (db db' : Store) (head : Nat) (hb : OldBlock)
    (hg : db.failGets = [])
    (hnd : (db.data.map Prod.fst).Nodup)
    (hwf : ∀ p ∈ db.data, blockEntryOk p = true)
    (hlast : assocFind Key.lastBlock db.data = some (.hashV head))
    (hhead : assocFind (Key.blockHash head) db.data = some (.blockV hb))
    (hok : upgradeChainDatabase db = .ok db') :
    (∀ h b, h ≠ head →
      assocFind (Key.blockHash h) db.data = some (.blockV b) →
      db.failPuts.contains (Key.tdKey h) = false ∧
      db.failPuts.contains (Key.bodyKey h) = false ∧
      db.failPuts.contains (Key.headerKey h) = false ∧
      db.failDels.contains (Key.blockHash h) = false) ∧
    db.failPuts.contains (Key.tdKey head) = false ∧
    db.failPuts.contains (Key.bodyKey head) = false ∧
    db.failPuts.contains (Key.headerKey head) = false := by
  have hbhash : hb.hash = head := by
    have hm := assocFind_mem _ _ _ hhead
    have hok2 := hwf _ hm
    simpa [blockEntryOk] using hok2
  have hun : ∀ h, Key.blockHash h ∈ db.data.map Prod.fst → h ≠ head →
      ∃ b : OldBlock, assocFind (Key.blockHash h) db.data
        = some (.blockV b) ∧ b.hash = h := by
    intro h hmem _
    have hne := assocFind_ne_none_of_mem_keys _ _ hmem
    cases hv : assocFind (Key.blockHash h) db.data with
    | none => exact absurd hv hne
    | some v =>
        have hok3 := hwf _ (assocFind_mem _ _ _ hv)
        cases v <;> simp [blockEntryOk] at hok3
        exact ⟨_, rfl, hok3⟩
  have hGBH : GetBlockByHashOld db head = some hb := by
    rw [GetBlockByHashOld, dbGet_nofail db _ hg, hhead]
  rw [upgradeChainDatabase, dbGet_nofail db _ hg, hlast] at hok
  dsimp only [bytesToHash] at hok
  rw [hGBH] at hok
  dsimp only at hok
  cases hloop : upgradeLoop head db (db.data.map Prod.fst) with
  | error e =>
      rw [hloop] at hok
      simp at hok
  | ok db1 =>
      rw [hloop] at hok
      dsimp only at hok
      obtain ⟨hfacts, hfg1, hfp1, hfd1, hunt1⟩ :=
        upgradeLoop_ok_inversion head (db.data.map Prod.fst) db db1
          hg hnd hun hloop
      have hf1head : assocFind (Key.blockHash head) db1.data
          = some (.blockV hb) := by
        rw [hunt1 (Key.blockHash head) (fun h' hne _ =>
          ⟨fun hq => hne (Key.blockHash.inj hq).symm,
           by simp, by simp, by simp⟩)]
        exact hhead
      have hGBH1 : GetBlockByHashOld db1 head = some hb := by
        rw [GetBlockByHashOld, dbGet_nofail db1 _ (hfg1.trans hg), hf1head]
      rw [hGBH1] at hok
      dsimp only at hok
      rw [WriteTd, dbPut] at hok
      by_cases hT : db1.failPuts.contains (Key.tdKey hb.hash) = true
      · rw [if_pos hT] at hok
        simp at hok
      · rw [if_neg hT] at hok
        dsimp only at hok
        rw [WriteBody, dbPut] at hok
        dsimp only at hok
        by_cases hB : db1.failPuts.contains (Key.bodyKey hb.hash) = true
        · rw [if_pos hB] at hok
          simp at hok
        · rw [if_neg hB] at hok
          dsimp only at hok
          rw [WriteHeader, dbPut] at hok
          dsimp only at hok
          by_cases hH : db1.failPuts.contains
              (Key.headerKey hb.header.hashVal) = true
          · rw [if_pos hH] at hok
            simp at hok
          · rw [hfp1] at hT hB hH
            refine ⟨?_, ?_, ?_, ?_⟩
            · intro h b hne hfindb
              exact hfacts h
                (List.mem_map_of_mem Prod.fst (assocFind_mem _ _ _ hfindb))
                hne
            · rw [← hbhash]
              simpa using hT
            · rw [← hbhash]
              simpa using hB
            · rw [← hbhash]
              simpa using hH

/-- Full characterisation of `upgradeChainDatabase` on a failure-free,
well-formed legacy store: it succeeds; the head pointer and the head's
combined record survive; the head's three split records are written;
every non-head combined record is gone, replaced by its three split
records; and the journal grows by non-head migration events followed —
last — by the head's three split writes. -/
theorem upgrade_spec (db : Store) (head : Nat) (hb : OldBlock)
    (hg : db.failGets = []) (hp : db.failPuts = []) (hd : db.failDels = [])
    (hnd : (db.data.map Prod.fst).Nodup)
    (hwf : ∀ p ∈ db.data, blockEntryOk p = true)
    (hlast : assocFind Key.lastBlock db.data = some (.hashV head))
    (hhead : assocFind (Key.blockHash head) db.data = some (.blockV hb)) :
    ∃ db', upgradeChainDatabase db = .ok db' ∧
      db'.failGets = [] ∧ db'.failPuts = [] ∧ db'.failDels = [] ∧
      assocFind Key.lastBlock db'.data = some (.hashV head) ∧
      assocFind (Key.blockHash head) db'.data = some (.blockV hb) ∧
      assocFind (Key.tdKey head) db'.data = some (.tdV hb.deprecatedTd) ∧
      assocFind (Key.bodyKey head) db'.data
        = some (.bodyV ⟨hb.txs, hb.uncles⟩) ∧
      assocFind (Key.headerKey head) db'.data = some (.headerV hb.header) ∧
      (∀ h, h ≠ head → assocFind (Key.blockHash h) db'.data = none) ∧
      (∀ h b, h ≠ head →
        assocFind (Key.blockHash h) db.data = some (.blockV b) →
        assocFind (Key.tdKey h) db'.data = some (.tdV b.deprecatedTd) ∧
        assocFind (Key.bodyKey h) db'.data
          = some (.bodyV ⟨b.txs, b.uncles⟩) ∧
        assocFind (Key.headerKey h) db'.data = some (.headerV b.header)) ∧
      (∃ evs, db'.journal = db.journal ++ evs ++
          [DbEvent.putE (Key.tdKey head) (.tdV hb.deprecatedTd),
           DbEvent.putE (Key.bodyKey head) (.bodyV ⟨hb.txs, hb.uncles⟩),
           DbEvent.putE (Key.headerKey head) (.headerV hb.header)] ∧
        ∀ e ∈ evs, ∃ h, h ≠ head ∧
          (DbEvent.key e = Key.blockHash h ∨ DbEvent.key e = Key.tdKey h ∨
           DbEvent.key e = Key.bodyKey h ∨
           DbEvent.key e = Key.headerKey h)) := by
  have hcont : ∀ k : Key, List.contains ([] : List Key) k = false := by
    intro k; rfl
  have hbhash : hb.hash = head := by
    have hm := assocFind_mem _ _ _ hhead
    have hok := hwf _ hm
    simpa [blockEntryOk] using hok
  have hun : ∀ h, Key.blockHash h ∈ db.data.map Prod.fst → h ≠ head →
      ∃ b : OldBlock, assocFind (Key.blockHash h) db.data
        = some (.blockV b) ∧ b.hash = h := by
    intro h hmem _
    have hne := assocFind_ne_none_of_mem_keys _ _ hmem
    cases hv : assocFind (Key.blockHash h) db.data with
    | none => exact absurd hv hne
    | some v =>
        have hok := hwf _ (assocFind_mem _ _ _ hv)
        cases v <;> simp [blockEntryOk] at hok
        exact ⟨_, rfl, hok⟩
  obtain ⟨db1, hloop, hfg1, hfp1, hfd1, hunt1, hmig1, hjour1⟩ :=
    upgradeLoop_spec head (db.data.map Prod.fst) db hg hp hd hnd hun
  have hf1head : assocFind (Key.blockHash head) db1.data
      = some (.blockV hb) := by
    rw [hunt1 (Key.blockHash head) (fun h' hne _ =>
      ⟨fun hq => hne (Key.blockHash.inj hq).symm, by simp, by simp, by simp⟩)]
    exact hhead
  have hflast1 : assocFind Key.lastBlock db1.data = some (.hashV head) := by
    rw [hunt1 Key.lastBlock (fun h' _ _ =>
      ⟨by simp, by simp, by simp, by simp⟩)]
    exact hlast
  have hGBH : GetBlockByHashOld db head = some hb := by
    rw [GetBlockByHashOld, dbGet_nofail db _ hg, hhead]
  have hGBH1 : GetBlockByHashOld db1 head = some hb := by
    rw [GetBlockByHashOld, dbGet_nofail db1 _ (hfg1.trans hg), hf1head]
  have key : upgradeChainDatabase db = .ok { db1 with
      data := (Key.headerKey hb.hash, Val.headerV hb.header) ::
        assocErase (Key.headerKey hb.hash)
          ((Key.bodyKey hb.hash, Val.bodyV ⟨hb.txs, hb.uncles⟩) ::
            assocErase (Key.bodyKey hb.hash)
              ((Key.tdKey hb.hash, Val.tdV hb.deprecatedTd) ::
                assocErase (Key.tdKey hb.hash) db1.data))
      journal := db1.journal
        ++ [DbEvent.putE (Key.tdKey hb.hash) (.tdV hb.deprecatedTd)]
        ++ [DbEvent.putE (Key.bodyKey hb.hash) (.bodyV ⟨hb.txs, hb.uncles⟩)]
        ++ [DbEvent.putE (Key.headerKey hb.hash) (.headerV hb.header)] } := by
    rw [upgradeChainDatabase, dbGet_nofail db _ hg, hlast]
    dsimp only [bytesToHash]
    rw [hGBH]
    dsimp only
    rw [hloop]
    dsimp only
    rw [hGBH1]
    dsimp only
    simp only [WriteTd, WriteBody, WriteHeader, dbPut,
      hfp1.trans hp, hcont, Bool.false_eq_true, if_false]
    rfl
  refine ⟨_, key, hfg1.trans hg, hfp1.trans hp, hfd1.trans hd,
    ?_, ?_, ?_, ?_, ?_, ?_, ?_, ?_⟩
  · dsimp only
    rw [find_after_three_puts]
    simp [hflast1]
  · dsimp only
    rw [find_after_three_puts]
    simp [hf1head]
  · dsimp only
    rw [find_after_three_puts]
    simp [hbhash]
  · dsimp only
    rw [find_after_three_puts]
    simp [hbhash]
  · dsimp only
    rw [find_after_three_puts]
    simp [hbhash]
  · intro h hne
    dsimp only
    rw [find_after_three_puts]
    simp only [show Key.blockHash h ≠ Key.headerKey hb.hash by simp,
      show Key.blockHash h ≠ Key.bodyKey hb.hash by simp,
      show Key.blockHash h ≠ Key.tdKey hb.hash by simp,
      if_neg, if_false]
    cases hv : assocFind (Key.blockHash h) db.data with
    | none =>
        rw [hunt1 (Key.blockHash h) (fun h' hne' hmem' => ?_)]
        · exact hv
        · refine ⟨?_, by simp, by simp, by simp⟩
          intro hq
          have hhh : h = h' := Key.blockHash.inj hq
          subst hhh
          exact absurd hv (assocFind_ne_none_of_mem_keys _ _ hmem')
    | some v =>
        have hmemk : Key.blockHash h ∈ db.data.map Prod.fst := by
          have hm := assocFind_mem _ _ _ hv
          exact List.mem_map_of_mem Prod.fst hm
        have hok := hwf _ (assocFind_mem _ _ _ hv)
        cases v <;> simp [blockEntryOk] at hok
        exact (hmig1 h _ hmemk hne hv).1
  · intro h b hne hfindb
    have hmemk : Key.blockHash h ∈ db.data.map Prod.fst :=
      List.mem_map_of_mem Prod.fst (assocFind_mem _ _ _ hfindb)
    have hm1 := hmig1 h b hmemk hne hfindb
    have hhne : h ≠ hb.hash := fun hq => hne (hq.trans hbhash)
    refine ⟨?_, ?_, ?_⟩
    · dsimp only
      rw [find_after_three_puts]
      simp only [show Key.tdKey h ≠ Key.headerKey hb.hash by simp,
        show Key.tdKey h ≠ Key.bodyKey hb.hash by simp,
        show Key.tdKey h ≠ Key.tdKey hb.hash by simp [hhne],
        if_neg, if_false]
      exact hm1.2.1
    · dsimp only
      rw [find_after_three_puts]
      simp only [show Key.bodyKey h ≠ Key.headerKey hb.hash by simp,
        show Key.bodyKey h ≠ Key.bodyKey hb.hash by simp [hhne],
        show Key.bodyKey h ≠ Key.tdKey hb.hash by simp,
        if_neg, if_false]
      exact hm1.2.2.1
    · dsimp only
      rw [find_after_three_puts]
      simp only [show Key.headerKey h ≠ Key.headerKey hb.hash by simp [hhne],
        show Key.headerKey h ≠ Key.bodyKey hb.hash by simp,
        show Key.headerKey h ≠ Key.tdKey hb.hash by simp,
        if_neg, if_false]
      exact hm1.2.2.2
  · obtain ⟨evs, hj1, hev1⟩ := hjour1
    refine ⟨evs, ?_, hev1⟩
    dsimp only
    rw [hj1, hbhash]
    simp

/-- C7: on a store detected as legacy (the `LastBlock` pointer resolves
to a combined old-format record), the migrator rewrites every non-head
legacy block into the three split records — total-difficulty, body,
header — and deletes its combined record (only non-head records are
deleted); and the head is migrated last: the journal consists of
migration events about non-head blocks followed, at the very end, by the
head's three split-record writes. -/
theorem upgrade_migrates_nonhead_then_head_last (db : Store) (head : Nat)
    (hb : OldBlock)
    (hg : db.failGets = []) (hp : db.failPuts = []) (hd : db.failDels = [])
    (hnd : (db.data.map Prod.fst).Nodup)
    (hwf : ∀ p ∈ db.data, blockEntryOk p = true)
    (hlast : assocFind Key.lastBlock db.data = some (.hashV head))
    (hhead : assocFind (Key.blockHash head) db.data = some (.blockV hb)) :
    ∃ db', upgradeChainDatabase db = .ok db' ∧
      (∀ h b, h ≠ head →
        assocFind (Key.blockHash h) db.data = some (.blockV b) →
        assocFind (Key.blockHash h) db'.data = none ∧
        assocFind (Key.tdKey h) db'.data = some (.tdV b.deprecatedTd) ∧
        assocFind (Key.bodyKey h) db'.data
          = some (.bodyV ⟨b.txs, b.uncles⟩) ∧
        assocFind (Key.headerKey h) db'.data = some (.headerV b.header)) ∧
      (assocFind (Key.tdKey head) db'.data = some (.tdV hb.deprecatedTd) ∧
       assocFind (Key.bodyKey head) db'.data
         = some (.bodyV ⟨hb.txs, hb.uncles⟩) ∧
       assocFind (Key.headerKey head) db'.data
         = some (.headerV hb.header)) ∧
      (∃ evs, db'.journal = db.journal ++ evs ++
          [DbEvent.putE (Key.tdKey head) (.tdV hb.deprecatedTd),
           DbEvent.putE (Key.bodyKey head) (.bodyV ⟨hb.txs, hb.uncles⟩),
           DbEvent.putE (Key.headerKey head) (.headerV hb.header)] ∧
        ∀ e ∈ evs, ∃ h, h ≠ head ∧
          (DbEvent.key e = Key.blockHash h ∨ DbEvent.key e = Key.tdKey h ∨
           DbEvent.key e = Key.bodyKey h ∨
           DbEvent.key e = Key.headerKey h)) := by
  obtain ⟨db', key, _, _, _, _, _, htd, hbody, hheader, hnone, hrecs,
    hjour⟩ := upgrade_spec db head hb hg hp hd hnd hwf hlast hhead
  refine ⟨db', key, ?_, ⟨htd, hbody, hheader⟩, hjour⟩
  intro h b hne hfindb
  obtain ⟨h1, h2, h3⟩ := hrecs h b hne hfindb
  exact ⟨hnone h hne, h1, h2, h3⟩

/-- C8: running the migrator twice in succession is idempotent: the
second run returns no error and changes no key of the store (the lookup
of every key is unchanged; the second pass merely re-writes the head's
three split records with the values they already hold, because the
head's combined record is never deleted). -/
theorem upgrade_idempotent (db : Store) (head : Nat) (hb : OldBlock)
    (hg : db.failGets = []) (hp : db.failPuts = []) (hd : db.failDels = [])
    (hnd : (db.data.map Prod.fst).Nodup)
    (hwf : ∀ p ∈ db.data, blockEntryOk p = true)
    (hlast : assocFind Key.lastBlock db.data = some (.hashV head))
    (hhead : assocFind (Key.blockHash head) db.data = some (.blockV hb)) :
    ∃ db1 db2, upgradeChainDatabase db = .ok db1 ∧
      upgradeChainDatabase db1 = .ok db2 ∧
      (∀ k, assocFind k db2.data = assocFind k db1.data) := by
  have hbhash : hb.hash = head := by
    have hm := assocFind_mem _ _ _ hhead
    have hok := hwf _ hm
    simpa [blockEntryOk] using hok
  obtain ⟨db1, key1, hfg1, hfp1, hfd1, hlast1, hhead1, htd1, hbody1,
    hheader1, hnone1, _, _⟩ :=
    upgrade_spec db head hb hg hp hd hnd hwf hlast hhead
  -- the second pass's iterator sees no non-head combined record
  have hskip : upgradeLoop head db1 (db1.data.map Prod.fst) = .ok db1 := by
    refine upgradeLoop_skip head _ db1 ?_
    intro h hmem
    by_contra hne
    exact absurd (hnone1 h hne) (assocFind_ne_none_of_mem_keys _ _ hmem)
  have hGBH1 : GetBlockByHashOld db1 head = some hb := by
    rw [GetBlockByHashOld, dbGet_nofail db1 _ hfg1, hhead1]
  -- re-putting the head's three records changes nothing
  obtain ⟨db2a, hput1, hfgA, hfpA, hfdA, hpresA⟩ :=
    dbPut_same db1 (Key.tdKey hb.hash) (.tdV hb.deprecatedTd) hfp1
      (by rw [hbhash]; exact htd1)
  obtain ⟨db2b, hput2, hfgB, hfpB, hfdB, hpresB⟩ :=
    dbPut_same db2a (Key.bodyKey hb.hash) (.bodyV ⟨hb.txs, hb.uncles⟩)
      (hfpA.trans hfp1)
      (by rw [hpresA, hbhash]; exact hbody1)
  obtain ⟨db2, hput3, hfgC, hfpC, hfdC, hpresC⟩ :=
    dbPut_same db2b (Key.headerKey hb.header.hashVal) (.headerV hb.header)
      (hfpB.trans (hfpA.trans hfp1))
      (by
        rw [hpresB, hpresA,
          show Key.headerKey hb.header.hashVal = Key.headerKey head from
            congrArg Key.headerKey hbhash]
        exact hheader1)
  refine ⟨db1, db2, key1, ?_, ?_⟩
  · rw [upgradeChainDatabase, dbGet_nofail db1 _ hfg1, hlast1]
    dsimp only [bytesToHash]
    rw [hGBH1]
    dsimp only
    rw [hskip]
    dsimp only
    rw [hGBH1]
    dsimp only
    rw [WriteTd, hput1]
    dsimp only
    rw [WriteBody, hput2]
    dsimp only
    rw [WriteHeader, hput3]
  · intro k
    rw [hpresC, hpresB, hpresA]

/-- Witness for `upgrade_migrates_nonhead_then_head_last` on the small
legacy demo store (head hash 1, one further legacy block with hash 2). -/
theorem upgrade_migrates_nonhead_then_head_last_witness :
    (demoLegacyStore.failGets = [] ∧ demoLegacyStore.failPuts = [] ∧
     demoLegacyStore.failDels = [] ∧
     (demoLegacyStore.data.map Prod.fst).Nodup ∧
     (∀ p ∈ demoLegacyStore.data, blockEntryOk p = true) ∧
     assocFind Key.lastBlock demoLegacyStore.data = some (.hashV 1) ∧
     assocFind (Key.blockHash 1) demoLegacyStore.data
       = some (.blockV demoHeadBlock)) ∧
    (∃ db', upgradeChainDatabase demoLegacyStore = .ok db' ∧
      (∀ h b, h ≠ 1 →
        assocFind (Key.blockHash h) demoLegacyStore.data
          = some (.blockV b) →
        assocFind (Key.blockHash h) db'.data = none ∧
        assocFind (Key.tdKey h) db'.data = some (.tdV b.deprecatedTd) ∧
        assocFind (Key.bodyKey h) db'.data
          = some (.bodyV ⟨b.txs, b.uncles⟩) ∧
        assocFind (Key.headerKey h) db'.data = some (.headerV b.header)) ∧
      (assocFind (Key.tdKey 1) db'.data
         = some (.tdV demoHeadBlock.deprecatedTd) ∧
       assocFind (Key.bodyKey 1) db'.data
         = some (.bodyV ⟨demoHeadBlock.txs, demoHeadBlock.uncles⟩) ∧
       assocFind (Key.headerKey 1) db'.data
         = some (.headerV demoHeadBlock.header)) ∧
      (∃ evs, db'.journal = demoLegacyStore.journal ++ evs ++
          [DbEvent.putE (Key.tdKey 1) (.tdV demoHeadBlock.deprecatedTd),
           DbEvent.putE (Key.bodyKey 1)
             (.bodyV ⟨demoHeadBlock.txs, demoHeadBlock.uncles⟩),
           DbEvent.putE (Key.headerKey 1) (.headerV demoHeadBlock.header)] ∧
        ∀ e ∈ evs, ∃ h, h ≠ 1 ∧
          (DbEvent.key e = Key.blockHash h ∨ DbEvent.key e = Key.tdKey h ∨
           DbEvent.key e = Key.bodyKey h ∨
           DbEvent.key e = Key.headerKey h))) :=
  ⟨⟨rfl, rfl, rfl, by decide, by decide, by decide, by decide⟩,
   upgrade_migrates_nonhead_then_head_last demoLegacyStore 1 demoHeadBlock
     rfl rfl rfl (by decide) (by decide) (by decide) (by decide)⟩

/-- Witness for `upgrade_idempotent` on the small legacy demo store. -/
theorem upgrade_idempotent_witness :
    (demoLegacyStore.failGets = [] ∧ demoLegacyStore.failPuts = [] ∧
     demoLegacyStore.failDels = [] ∧
     (demoLegacyStore.data.map Prod.fst).Nodup ∧
     (∀ p ∈ demoLegacyStore.data, blockEntryOk p = true) ∧
     assocFind Key.lastBlock demoLegacyStore.data = some (.hashV 1) ∧
     assocFind (Key.blockHash 1) demoLegacyStore.data
       = some (.blockV demoHeadBlock)) ∧
    (∃ db1 db2, upgradeChainDatabase demoLegacyStore = .ok db1 ∧
      upgradeChainDatabase db1 = .ok db2 ∧
      (∀ k, assocFind k db2.data = assocFind k db1.data)) :=
  ⟨⟨rfl, rfl, rfl, by decide, by decide, by decide, by decide⟩,
   upgrade_idempotent demoLegacyStore 1 demoHeadBlock
     rfl rfl rfl (by decide) (by decide) (by decide) (by decide)⟩

/-! ## Theorems: bloom index builder -/

/-- Splitting a bloom walk at a list concatenation. -/
theorem mipmapWalk_append (l1 l2 : List Nat) : ∀ db,
    mipmapWalk db (l1 ++ l2) =
      match mipmapWalk db l1 with
      | (none, d) => mipmapWalk d l2
      | (some e, d) => (some e, d) := by
  induction l1 with
  | nil => intro db; rfl
  | cons i rest ih =>
      intro db
      rw [List.cons_append]
      by_cases hz : GetCanonicalHash db i = 0
      · simp [mipmapWalk, hz]
      · simp only [mipmapWalk, hz, if_false, ite_false]
        rw [ih]

/-- A walk over numbers whose canonical hashes are all present succeeds
and touches only bloom-bin keys. -/
theorem mipmapWalk_clean (js : List Nat) :
    ∀ db : Store, db.failGets = [] → db.failPuts = [] → db.failDels = [] →
    (∀ j ∈ js, GetCanonicalHash db j ≠ 0) →
    ∃ db', mipmapWalk db js = (none, db') ∧
      db'.failGets = [] ∧ db'.failPuts = [] ∧ db'.failDels = [] ∧
      (∀ k, (∀ n, k ≠ Key.bloomBin n) →
        assocFind k db'.data = assocFind k db.data) := by
  induction js with
  | nil => intro db hg hp hd _; exact ⟨db, rfl, hg, hp, hd, fun _ _ => rfl⟩
  | cons j rest ih =>
      intro db hg hp hd hnz
      have hz := hnz j (List.mem_cons_self _ _)
      have hstepeq : mipmapWalk db (j :: rest)
          = mipmapWalk (bloomStep db j) rest := by
        rw [mipmapWalk]
        dsimp only
        rw [if_neg hz, WriteMipmapBloom, dbPut_ok db _ _ hp]
        rfl
      have hgS : (bloomStep db j).failGets = [] := hg
      have hpS : (bloomStep db j).failPuts = [] := hp
      have hdS : (bloomStep db j).failDels = [] := hd
      have hpresS : ∀ k, (∀ n, k ≠ Key.bloomBin n) →
          assocFind k (bloomStep db j).data = assocFind k db.data := by
        intro k hk
        rw [show (bloomStep db j).data = (Key.bloomBin j, Val.bloomV
            ((GetBlockReceipts db (GetCanonicalHash db j)).foldl Nat.lor
              (mipmapOldBin db j))) :: assocErase (Key.bloomBin j) db.data
          from rfl]
        rw [assocFind_cons, if_neg (fun hh => hk j hh.symm),
          assocFind_erase_ne _ _ _ (hk j)]
      have hcanS : ∀ j', GetCanonicalHash (bloomStep db j) j'
          = GetCanonicalHash db j' := by
        intro j'
        rw [GetCanonicalHash, GetCanonicalHash,
          dbGet_nofail (bloomStep db j) _ hgS, dbGet_nofail db _ hg,
          hpresS (Key.canonicalKey j') (fun n => by simp)]
      have hnzS : ∀ j' ∈ rest, GetCanonicalHash (bloomStep db j) j' ≠ 0 := by
        intro j' hm
        rw [hcanS j']
        exact hnz j' (List.mem_cons_of_mem _ hm)
      obtain ⟨db', hw, hg', hp', hd', hpres'⟩ :=
        ih (bloomStep db j) hgS hpS hdS hnzS
      exact ⟨db', by rw [hstepeq]; exact hw, hg', hp', hd',
        fun k hk => (hpres' k hk).trans (hpresS k hk)⟩

/-- The version check fails on a failure-free store that does not hold
the current marker. -/
theorem mipmapVersionOk_false (db : Store) (hg : db.failGets = [])
    (hver : assocFind Key.mipmapVersion db.data
      ≠ some (.versionV mipmapVersionConst)) :
    mipmapVersionOk db = false := by
  rw [mipmapVersionOk, dbGet_nofail db _ hg]
  cases hfv : assocFind Key.mipmapVersion db.data with
  | none => rfl
  | some v =>
      cases v
      case versionV w =>
        show (w == mipmapVersionConst) = false
        simp only [beq_eq_false_iff_ne, ne_eq]
        intro hq
        exact hver (by rw [hfv, hq])
      all_goals rfl

/-- C9: if the canonical hash is absent for some block number `i` in
`[0, head]` (and present below `i`), `addMipmapBloomBins` returns the
corruption error naming `i` and leaves the mipmap version marker exactly
as it was — the marker is not persisted, so the build is redone in full
on the next run. -/
theorem bloom_index_corruption_detected (db : Store) (latest : BHeader)
    (i : Nat)
    (hg : db.failGets = []) (hp : db.failPuts = []) (hd : db.failDels = [])
    (hver : assocFind Key.mipmapVersion db.data
      ≠ some (.versionV mipmapVersionConst))
    (hhead : GetBlock db (GetHeadBlockHash db) = some latest)
    (hi : i ≤ latest.number)
    (hz : GetCanonicalHash db i = 0)
    (hfirst : ∀ j, j < i → GetCanonicalHash db j ≠ 0) :
    ∃ db', addMipmapBloomBins db = (some (.corrupt i), db') ∧
      assocFind Key.mipmapVersion db'.data
        = assocFind Key.mipmapVersion db.data := by
  have hvfalse : mipmapVersionOk db = false := mipmapVersionOk_false db hg hver
  have hsplit : List.range (latest.number + 1)
      = List.range i ++ i :: List.range' (i + 1) (latest.number - i) := by
    rw [List.range_eq_range', List.range_eq_range']
    have h1 : latest.number + 1 = (latest.number + 1 - i) + i := by omega
    rw [h1, ← List.range'_append_1 0 i (latest.number + 1 - i)]
    have h2 : latest.number + 1 - i = (latest.number - i) + 1 := by omega
    rw [h2, List.range'_succ]
    simp
  obtain ⟨dbp, hwp, hgp, _, _, hpresp⟩ :=
    mipmapWalk_clean (List.range i) db hg hp hd
      (fun j hm => hfirst j (List.mem_range.mp hm))
  have hzp : GetCanonicalHash dbp i = 0 := by
    rw [GetCanonicalHash, dbGet_nofail dbp _ hgp,
      hpresp (Key.canonicalKey i) (fun n => by simp)]
    rw [GetCanonicalHash, dbGet_nofail db _ hg] at hz
    exact hz
  have hwalk : mipmapWalk db (List.range (latest.number + 1))
      = (some (.corrupt i), dbp) := by
    rw [hsplit, mipmapWalk_append, hwp]
    simp [mipmapWalk, hzp]
  refine ⟨dbp, ?_, hpresp Key.mipmapVersion (fun n => by simp)⟩
  rw [addMipmapBloomBins, hvfalse]
  simp only [Bool.false_eq_true, if_false]
  rw [hhead]
  dsimp only
  rw [hwalk]

/-- Witness for `bloom_index_corruption_detected` on the demo bloom
store: head number 2, canonical hash present for 0, absent for 1. -/
theorem bloom_index_corruption_detected_witness :
    (demoBloomStore.failGets = [] ∧
     assocFind Key.mipmapVersion demoBloomStore.data
       ≠ some (.versionV mipmapVersionConst) ∧
     GetBlock demoBloomStore (GetHeadBlockHash demoBloomStore)
       = some ⟨2, 5⟩ ∧
     (1 : Nat) ≤ (2 : Nat) ∧
     GetCanonicalHash demoBloomStore 1 = 0) ∧
    (∃ db', addMipmapBloomBins demoBloomStore
        = (some (.corrupt 1), db') ∧
      assocFind Key.mipmapVersion db'.data
        = assocFind Key.mipmapVersion demoBloomStore.data) :=
  ⟨⟨rfl, by decide, by rfl, by decide, by rfl⟩,
   bloom_index_corruption_detected demoBloomStore ⟨2, 5⟩ 1
     rfl rfl rfl (by decide) (by rfl) (by decide) (by rfl)
     (fun j hj => by rw [Nat.lt_one_iff.mp hj]; decide)⟩

/-! ## Theorems: error propagation -/

/-- C10 (counterexample): a store whose `LastBlock` read fails.  The
read returns an error, yet `upgradeChainDatabase` returns success with
the store untouched — the failure is masked, not propagated (the source
treats any error on this read as "no legacy database", lines
676–679). -/
theorem lastBlock_read_failure_masked :
    dbGet demoFailGetStore Key.lastBlock = .error .ioError ∧
    upgradeChainDatabase demoFailGetStore = .ok demoFailGetStore :=
  ⟨rfl, rfl⟩

/-- C10 (amended).  Propagated: a failure of any store operation the
migrator performs for any legacy block — the total-difficulty, body or
header write of a non-head or head block, or the delete of a non-head
block's combined record — makes `upgradeChainDatabase` return an error
rather than success, and a failure of the bloom builder's version-marker
write is returned both on a clean database and after a successful walk.
Masked: a failing read of the `LastBlock` head pointer makes the
migrator return success with the store untouched; a failing read of the
mipmap version key merely makes the version check fail (and the builder
can still return success); and a failing bloom-bin write leaves the walk
to continue on the unchanged store. -/
theorem storage_failure_propagation_amended :
    (∀ db : Store, db.failGets.contains Key.lastBlock = true →
      upgradeChainDatabase db = .ok db) ∧
    (∀ (db : Store) (head h0 : Nat) (hb b0 : OldBlock),
      db.failGets = [] →
      (db.data.map Prod.fst).Nodup →
      (∀ p ∈ db.data, blockEntryOk p = true) →
      assocFind Key.lastBlock db.data = some (.hashV head) →
      assocFind (Key.blockHash head) db.data = some (.blockV hb) →
      assocFind (Key.blockHash h0) db.data = some (.blockV b0) →
      (db.failPuts.contains (Key.tdKey h0) = true ∨
       db.failPuts.contains (Key.bodyKey h0) = true ∨
       db.failPuts.contains (Key.headerKey h0) = true ∨
       (h0 ≠ head ∧ db.failDels.contains (Key.blockHash h0) = true)) →
      ∃ e, upgradeChainDatabase db = .error e) ∧
    (∀ db : Store,
      mipmapVersionOk db = false →
      GetBlock db (GetHeadBlockHash db) = none →
      db.failPuts.contains Key.mipmapVersion = true →
      addMipmapBloomBins db = (some .ioError, db)) ∧
    (∀ (db db1 : Store) (latest : BHeader),
      mipmapVersionOk db = false →
      GetBlock db (GetHeadBlockHash db) = some latest →
      mipmapWalk db (List.range (latest.number + 1)) = (none, db1) →
      db1.failPuts.contains Key.mipmapVersion = true →
      addMipmapBloomBins db = (some .ioError, db1)) ∧
    (∀ db : Store, db.failGets.contains Key.mipmapVersion = true →
      mipmapVersionOk db = false) ∧
    (∀ db db2 : Store,
      db.failGets.contains Key.mipmapVersion = true →
      GetBlock db (GetHeadBlockHash db) = none →
      dbPut db Key.mipmapVersion (.versionV mipmapVersionConst)
        = .ok db2 →
      addMipmapBloomBins db = (none, db2)) ∧
    (∀ (db : Store) (j : Nat) (rest : List Nat),
      GetCanonicalHash db j ≠ 0 →
      db.failPuts.contains (Key.bloomBin j) = true →
      mipmapWalk db (j :: rest) = mipmapWalk db rest) := by
  have hreadmask : ∀ db : Store,
      db.failGets.contains Key.mipmapVersion = true →
      mipmapVersionOk db = false := by
    intro db hfail
    rw [mipmapVersionOk, dbGet, if_pos hfail]
  refine ⟨?_, ?_, ?_, ?_, hreadmask, ?_, ?_⟩
  · intro db hfail
    rw [upgradeChainDatabase,
      show dbGet db Key.lastBlock = .error .ioError by
        rw [dbGet, if_pos hfail]]
  · intro db head h0 hb b0 hg hnd hwf hlast hhead hfind0 hfail
    cases hres : upgradeChainDatabase db with
    | error e => exact ⟨e, rfl⟩
    | ok dbx =>
        exfalso
        obtain ⟨hnonhead, hTd, hBd, hHd⟩ :=
          upgrade_ok_inversion db dbx head hb hg hnd hwf hlast hhead hres
        by_cases hh : h0 = head
        · subst hh
          rcases hfail with f | f | f | ⟨hne, -⟩
          · rw [hTd] at f
            exact absurd f (by simp)
          · rw [hBd] at f
            exact absurd f (by simp)
          · rw [hHd] at f
            exact absurd f (by simp)
          · exact hne rfl
        · obtain ⟨f1, f2, f3, f4⟩ := hnonhead h0 b0 hh hfind0
          rcases hfail with f | f | f | ⟨-, f⟩
          · rw [f1] at f
            exact absurd f (by simp)
          · rw [f2] at f
            exact absurd f (by simp)
          · rw [f3] at f
            exact absurd f (by simp)
          · rw [f4] at f
            exact absurd f (by simp)
  · intro db hv hclean hfp
    rw [addMipmapBloomBins, hv]
    simp only [Bool.false_eq_true, if_false]
    rw [hclean]
    dsimp only
    rw [dbPut, if_pos hfp]
  · intro db db1 latest hv hheadblk hwalk hfp
    rw [addMipmapBloomBins, hv]
    simp only [Bool.false_eq_true, if_false]
    rw [hheadblk]
    dsimp only
    rw [hwalk]
    dsimp only
    rw [dbPut, if_pos hfp]
  · intro db db2 hfail hclean hput
    rw [addMipmapBloomBins, hreadmask db hfail]
    simp only [Bool.false_eq_true, if_false]
    rw [hclean]
    dsimp only
    rw [hput]
  · intro db j rest hz hfp
    rw [mipmapWalk]
    dsimp only
    rw [if_neg hz, WriteMipmapBloom, dbPut, if_pos hfp]

/-- Witness for `storage_failure_propagation_amended`: each conjunct
exercised on an injected-failure demo store (masked `LastBlock` read; a
body-write failure of a non-head block aborting the migrator; a marker
write failing on a clean store and after a successful one-block walk; a
masked version-key read, with and without a subsequent successful run;
a masked bloom-bin write). -/
theorem storage_failure_propagation_amended_witness :
    upgradeChainDatabase demoFailGetStore = .ok demoFailGetStore ∧
    (∃ e, upgradeChainDatabase demoFailBodyStore = .error e) ∧
    addMipmapBloomBins demoFailVersionStore
      = (some .ioError, demoFailVersionStore) ∧
    addMipmapBloomBins demoVerWalkStore
      = (some .ioError, demoVerWalkedStore) ∧
    mipmapVersionOk demoFailVerReadStore = false ∧
    addMipmapBloomBins demoFailVerReadStore = (none, demoMarkedStore) ∧
    mipmapWalk demoFailBinStore [0] = mipmapWalk demoFailBinStore [] :=
  ⟨storage_failure_propagation_amended.1 demoFailGetStore (by rfl),
   storage_failure_propagation_amended.2.1 demoFailBodyStore 1 2
     demoHeadBlock demoOtherBlock rfl (by decide) (by decide) (by decide)
     (by decide) (by decide) (Or.inr (Or.inl (by rfl))),
   storage_failure_propagation_amended.2.2.1 demoFailVersionStore
     (by rfl) (by rfl) (by rfl),
   storage_failure_propagation_amended.2.2.2.1 demoVerWalkStore
     demoVerWalkedStore ⟨0, 5⟩ (by rfl) (by rfl) (by decide) (by rfl),
   storage_failure_propagation_amended.2.2.2.2.1 demoFailVerReadStore
     (by rfl),
   storage_failure_propagation_amended.2.2.2.2.2.1 demoFailVerReadStore
     demoMarkedStore (by rfl) (by rfl) (by rfl),
   storage_failure_propagation_amended.2.2.2.2.2.2 demoFailBinStore 0 []
     (by decide) (by rfl)⟩

end Earthdollar
